import Mathlib

/-!
Verification development for the `memo` command-memoization tool.

The definitions below are a shallow embedding of the Rust sources:
`src/digest.rs`, `src/cache.rs`, `src/executor.rs`, `src/memo.rs`,
`src/constants.rs` and the coordinator in `src/main.rs`.  Machine integers
are modelled as `Nat`/`Int` with explicit reductions modulo `2^32` (resp.
masks) where the Rust code relies on fixed-width arithmetic.  File-system
state is modelled as an explicit directory listing; I/O outcomes that are
decided by the operating system (write failures, rename glitches) are
passed in as explicit oracle values.
-/

set_option maxRecDepth 8192

namespace MemoSpec

/-! ## Bytes and UTF-8

Rust strings are UTF-8; `serde_json::to_vec` produces UTF-8 bytes.  We
model bytes as `Nat` values below 256 and implement the standard UTF-8
encoding of a `Char`, together with a decoder used only to establish
injectivity of the encoding.
-/

/-- UTF-8 encoding of a single character, as a list of bytes. -/
def utf8Char (c : Char) : List Nat :=
  let n := c.toNat
  if n < 128 then [n]
  else if n < 2048 then [192 + n / 64, 128 + n % 64]
  else if n < 65536 then [224 + n / 4096, 128 + (n / 64) % 64, 128 + n % 64]
  else [240 + n / 262144, 128 + (n / 4096) % 64, 128 + (n / 64) % 64, 128 + n % 64]

/-- UTF-8 encoding of a character list. -/
def utf8Str : List Char → List Nat
  | [] => []
  | c :: r => utf8Char c ++ utf8Str r

/-- One step of UTF-8 decoding: given the first byte and the remaining
bytes, return the decoded scalar value and the rest of the input. -/
def utf8DecodeStep (b : Nat) (rest : List Nat) : Option (Nat × List Nat) :=
  if b < 128 then some (b, rest)
  else if b < 224 then
    match rest with
    | b2 :: r => some ((b - 192) * 64 + (b2 - 128), r)
    | [] => none
  else if b < 240 then
    match rest with
    | b2 :: b3 :: r => some ((b - 224) * 4096 + (b2 - 128) * 64 + (b3 - 128), r)
    | _ => none
  else
    match rest with
    | b2 :: b3 :: b4 :: r =>
      some ((b - 240) * 262144 + (b2 - 128) * 4096 + (b3 - 128) * 64 + (b4 - 128), r)
    | _ => none

/-- UTF-8 decoder (lenient: no surrogate check); partial inverse of
`utf8Str`, used to prove the encoding injective. -/
def utf8Decode : List Nat → Option (List Char)
  | [] => some []
  | b :: rest =>
    match h : utf8DecodeStep b rest with
    | none => none
    | some (n, r) => (utf8Decode r).map (fun l => Char.ofNat n :: l)
termination_by l => l.length
decreasing_by
  have hle : r.length ≤ rest.length := by
    unfold utf8DecodeStep at h
    split at h
    · cases h; exact Nat.le_refl _
    · split at h
      · split at h
        · cases h; simp
        · cases h
      · split at h
        · split at h
          · cases h; simp; omega
          · cases h
        · split at h
          · cases h; simp; omega
          · cases h
  simp only [List.length_cons]
  omega

/-! ## SHA-256

`digest.rs` hashes with the `sha2` crate.  This is the FIPS 180-4
algorithm on byte lists, with 32-bit words modelled as `Nat` reduced
modulo `2^32`.
-/

def M32 : Nat := 4294967296

def rotr32 (n x : Nat) : Nat := ((x >>> n) ||| (x <<< (32 - n))) % M32

def bigSigma0 (x : Nat) : Nat := rotr32 2 x ^^^ rotr32 13 x ^^^ rotr32 22 x

def bigSigma1 (x : Nat) : Nat := rotr32 6 x ^^^ rotr32 11 x ^^^ rotr32 25 x

def smallSigma0 (x : Nat) : Nat := rotr32 7 x ^^^ rotr32 18 x ^^^ (x >>> 3)

def smallSigma1 (x : Nat) : Nat := rotr32 17 x ^^^ rotr32 19 x ^^^ (x >>> 10)

def chFn (e f g : Nat) : Nat := (e &&& f) ^^^ (((M32 - 1) ^^^ e) &&& g)

def majFn (a b c : Nat) : Nat := (a &&& b) ^^^ (a &&& c) ^^^ (b &&& c)

/-- The 64 SHA-256 round constants. -/
def sha256K : List Nat :=
  [1116352408, 1899447441, 3049323471, 3921009573, 961987163, 1508970993,
   2453635748, 2870763221, 3624381080, 310598401, 607225278, 1426881987,
   1925078388, 2162078206, 2614888103, 3248222580, 3835390401, 4022224774,
   264347078, 604807628, 770255983, 1249150122, 1555081692, 1996064986,
   2554220882, 2821834349, 2952996808, 3210313671, 3336571891, 3584528711,
   113926993, 338241895, 666307205, 773529912, 1294757372, 1396182291,
   1695183700, 1986661051, 2177026350, 2456956037, 2730485921, 2820302411,
   3259730800, 3345764771, 3516065817, 3600352804, 4094571909, 275423344,
   430227734, 506948616, 659060556, 883997877, 958139571, 1322822218,
   1537002063, 1747873779, 1955562222, 2024104815, 2227730452, 2361852424,
   2428436474, 2756734187, 3204031479, 3329325298]

/-- The eight 32-bit working registers of the compression function. -/
structure Hash8 where
  a : Nat
  b : Nat
  c : Nat
  d : Nat
  e : Nat
  f : Nat
  g : Nat
  h : Nat

def sha256H0 : Hash8 :=
  ⟨0x6a09e667, 0xbb67ae85, 0x3c6ef372, 0xa54ff53a, 0x510e527f, 0x9b05688c, 0x1f83d9ab, 0x5be0cd19⟩

/-- Big-endian packing of bytes into 32-bit words. -/
def be32Words : List Nat → List Nat
  | b0 :: b1 :: b2 :: b3 :: rest => (((b0 * 256 + b1) * 256 + b2) * 256 + b3) :: be32Words rest
  | _ => []

/-- Extend a 16-word block schedule by `k` further words. -/
def extendSchedule : Nat → List Nat → List Nat
  | 0, w => w
  | k + 1, w =>
    let n := w.length
    let x := (smallSigma1 (w.getD (n - 2) 0) + w.getD (n - 7) 0 +
      smallSigma0 (w.getD (n - 15) 0) + w.getD (n - 16) 0) % M32
    extendSchedule k (w ++ [x])

def sha256Round (st : Hash8) (kw : Nat × Nat) : Hash8 :=
  let t1 := (st.h + bigSigma1 st.e + chFn st.e st.f st.g + kw.1 + kw.2) % M32
  let t2 := (bigSigma0 st.a + majFn st.a st.b st.c) % M32
  ⟨(t1 + t2) % M32, st.a, st.b, st.c, (st.d + t1) % M32, st.e, st.f, st.g⟩

def add8 (x y : Hash8) : Hash8 :=
  ⟨(x.a + y.a) % M32, (x.b + y.b) % M32, (x.c + y.c) % M32, (x.d + y.d) % M32,
   (x.e + y.e) % M32, (x.f + y.f) % M32, (x.g + y.g) % M32, (x.h + y.h) % M32⟩

def sha256Chunk (st : Hash8) (chunk : List Nat) : Hash8 :=
  let w := extendSchedule 48 (be32Words chunk)
  add8 st ((sha256K.zip w).foldl sha256Round st)

/-- Split a byte list into 64-byte chunks.  The fuel argument makes the
recursion structural (hence kernel-computable); `chunks64` supplies fuel
that can never run out, since every step consumes at least one byte. -/
def chunks64Fuel : Nat → List Nat → List (List Nat)
  | _, [] => []
  | 0, _ :: _ => []
  | fuel + 1, b :: rest => ((b :: rest).take 64) :: chunks64Fuel fuel ((b :: rest).drop 64)

def chunks64 (l : List Nat) : List (List Nat) := chunks64Fuel l.length l

def be64Bytes (n : Nat) : List Nat :=
  [n >>> 56 % 256, n >>> 48 % 256, n >>> 40 % 256, n >>> 32 % 256,
   n >>> 24 % 256, n >>> 16 % 256, n >>> 8 % 256, n % 256]

/-- Merkle-Damgard padding: 0x80, zeros to 56 mod 64, 8-byte big-endian bit length. -/
def sha256Pad (msg : List Nat) : List Nat :=
  msg ++ [128] ++ List.replicate ((64 - (msg.length + 9) % 64) % 64) 0 ++
    be64Bytes (8 * msg.length)

/-- Serialize the eight registers as 32 big-endian bytes. -/
def hashBytes (st : Hash8) : List Nat :=
  [st.a >>> 24 % 256, st.a >>> 16 % 256, st.a >>> 8 % 256, st.a % 256,
   st.b >>> 24 % 256, st.b >>> 16 % 256, st.b >>> 8 % 256, st.b % 256,
   st.c >>> 24 % 256, st.c >>> 16 % 256, st.c >>> 8 % 256, st.c % 256,
   st.d >>> 24 % 256, st.d >>> 16 % 256, st.d >>> 8 % 256, st.d % 256,
   st.e >>> 24 % 256, st.e >>> 16 % 256, st.e >>> 8 % 256, st.e % 256,
   st.f >>> 24 % 256, st.f >>> 16 % 256, st.f >>> 8 % 256, st.f % 256,
   st.g >>> 24 % 256, st.g >>> 16 % 256, st.g >>> 8 % 256, st.g % 256,
   st.h >>> 24 % 256, st.h >>> 16 % 256, st.h >>> 8 % 256, st.h % 256]

def sha256 (msg : List Nat) : List Nat :=
  hashBytes ((chunks64 (sha256Pad msg)).foldl sha256Chunk sha256H0)

/-! ## Lowercase hex rendering (the `hex` crate) -/

def hexNibble (n : Nat) : Char := "0123456789abcdef".toList.getD (n % 16) (Char.ofNat 48)

def hexByteChars (b : Nat) : List Char := [hexNibble (b / 16), hexNibble b]

def hexChars : List Nat → List Char
  | [] => []
  | b :: r => hexByteChars b ++ hexChars r

def hex_encode (bs : List Nat) : String := String.mk (hexChars bs)

/-! ## The canonical digest input encoding (`serde_json::to_vec`)

`compute_digest_for_args` feeds the hasher the compact JSON encoding of
the argv (a JSON array of strings) followed by the compact JSON encoding
of the cwd (a JSON string).  `serde_json` escapes `"`, `\` and control
characters and emits everything else as raw UTF-8.  Serialization of
strings and string lists is infallible, so the `Result` in the Rust
signature is modelled as a plain value.
-/

def escapeChar (c : Char) : List Char :=
  if c = '"' then ['\\', '"']
  else if c = '\\' then ['\\', '\\']
  else if c.toNat < 32 then
    if c.toNat = 8 then ['\\', 'b']
    else if c.toNat = 9 then ['\\', 't']
    else if c.toNat = 10 then ['\\', 'n']
    else if c.toNat = 12 then ['\\', 'f']
    else if c.toNat = 13 then ['\\', 'r']
    else ['\\', 'u', '0', '0', hexNibble (c.toNat / 16), hexNibble c.toNat]
  else [c]

def escapeString : List Char → List Char
  | [] => []
  | c :: r => escapeChar c ++ escapeString r

/-- A JSON string literal: quote, escaped contents, quote. -/
def jsonStringChars (s : String) : List Char := '"' :: (escapeString s.toList ++ ['"'])

/-- Comma-separated JSON string literals. -/
def jsonArrayCharsAux : List String → List Char
  | [] => []
  | [s] => jsonStringChars s
  | s :: r => jsonStringChars s ++ ',' :: jsonArrayCharsAux r

/-- A compact JSON array of strings. -/
def jsonArrayChars (args : List String) : List Char := '[' :: (jsonArrayCharsAux args ++ [']'])

/-- The exact byte string fed to the hasher: `serde_json::to_vec(args)`
followed by `serde_json::to_vec(cwd)`. -/
def digestInput (args : List String) (cwd : String) : List Nat :=
  utf8Str (jsonArrayChars args) ++ utf8Str (jsonStringChars cwd)

/-- `compute_digest_for_args` from `digest.rs`: SHA-256 over the compact
JSON encoding of argv concatenated with that of cwd, rendered as
lowercase hex. -/
def compute_digest_for_args (args : List String) (cwd : String) : String :=
  hex_encode (sha256 (digestInput args cwd))

/-! ## Memo metadata (`memo.rs`) and its JSON form

`Memo` is the record serialized to `meta.json`.  `to_string_pretty`
renders it exactly as `serde_json::to_string_pretty` does (two-space
indent, `": "` separators, fields in declaration order); `from_str`
parses JSON text generically and then extracts the record the way the
derived `Deserialize` does (fields looked up by name, `i32` range check
on `exit_code`).  The file stores this text as UTF-8; we model the text
itself.
-/

structure Memo where
  cmd : List String
  cwd : String
  exit_code : Int
  timestamp : String
  digest : String
deriving DecidableEq

def digitChar (n : Nat) : Char := Char.ofNat (48 + n % 10)

/-- Decimal digits of a natural number (`itoa`); fuel keeps the recursion
structural, `natChars` supplies enough fuel for any input. -/
def natCharsFuel : Nat → Nat → List Char
  | 0, _ => []
  | fuel + 1, n => if n < 10 then [digitChar n] else natCharsFuel fuel (n / 10) ++ [digitChar n]

def natChars (n : Nat) : List Char := natCharsFuel (n + 1) n

def intChars (n : Int) : List Char :=
  if n < 0 then '-' :: natChars (-n).toNat else natChars n.toNat

def indentChars (lvl : Nat) : List Char := List.replicate (2 * lvl) ' '

/-- The elements of the `cmd` array, one per line at depth 2. -/
def prettyCmdElems : List String → List Char
  | [] => []
  | [s] => indentChars 2 ++ (jsonStringChars s ++ [])
  | s :: r => indentChars 2 ++ (jsonStringChars s ++ (',' :: '\n' :: prettyCmdElems r))

def prettyCmdArray (cmd : List String) : List Char :=
  match cmd with
  | [] => ['[', ']']
  | _ => '[' :: '\n' :: (prettyCmdElems cmd ++ ('\n' :: (indentChars 1 ++ [']'])))

/-- The separator-plus-remaining-elements suffix after one array element. -/
def elemsTail (r : List String) : List Char :=
  match r with
  | [] => []
  | _ => ',' :: '\n' :: prettyCmdElems r

/-- One `"key": value` line at depth 1, with its separator suffix. -/
def prettyField (k : String) (v : List Char) (sep : List Char) : List Char :=
  indentChars 1 ++ (jsonStringChars k ++ (':' :: ' ' :: (v ++ sep)))

/-- The full pretty-printed `Memo` document, as characters. -/
def prettyMemoChars (m : Memo) : List Char :=
  '{' :: '\n' ::
    (prettyField "cmd" (prettyCmdArray m.cmd) [',', '\n'] ++
    (prettyField "cwd" (jsonStringChars m.cwd) [',', '\n'] ++
    (prettyField "exit_code" (intChars m.exit_code) [',', '\n'] ++
    (prettyField "timestamp" (jsonStringChars m.timestamp) [',', '\n'] ++
    (prettyField "digest" (jsonStringChars m.digest) ['\n'] ++ ['}'])))))

/-- `serde_json::to_string_pretty` applied to a `Memo`. -/
def to_string_pretty (m : Memo) : String := String.mk (prettyMemoChars m)

/-! ### Generic JSON parsing (`serde_json::from_str`)

The value grammar restricted to the constructs a `Memo` document can
contain: strings, integers, arrays and objects.  The fuel argument is
spent on nested values and on list elements; `from_str` passes the input
length plus one, which every parse of interest stays below.
-/

inductive JValue where
  | jstr (s : String)
  | jint (n : Int)
  | jarr (elems : List JValue)
  | jobj (fields : List (String × JValue))

def isWsChar (c : Char) : Bool := c == ' ' || c == '\n' || c == '\t' || c == '\r'

def skipWs : List Char → List Char
  | [] => []
  | c :: r => if isWsChar c then skipWs r else c :: r

def hexDigitVal (c : Char) : Option Nat :=
  if 48 ≤ c.toNat ∧ c.toNat ≤ 57 then some (c.toNat - 48)
  else if 97 ≤ c.toNat ∧ c.toNat ≤ 102 then some (c.toNat - 87)
  else if 65 ≤ c.toNat ∧ c.toNat ≤ 70 then some (c.toNat - 55)
  else none

/-- Decoding of a two-character escape (no `u`). -/
def escCharVal (e : Char) : Option Char :=
  if e = '"' then some '"'
  else if e = '\\' then some '\\'
  else if e = '/' then some '/'
  else if e = 'b' then some (Char.ofNat 8)
  else if e = 'f' then some (Char.ofNat 12)
  else if e = 'n' then some '\n'
  else if e = 'r' then some '\r'
  else if e = 't' then some '\t'
  else none

/-- Decoding of a `\uXXXX` escape payload. -/
def hexQuad (h1 h2 h3 h4 : Char) : Option Char :=
  match hexDigitVal h1, hexDigitVal h2, hexDigitVal h3, hexDigitVal h4 with
  | some d1, some d2, some d3, some d4 =>
    some (Char.ofNat (((d1 * 16 + d2) * 16 + d3) * 16 + d4))
  | _, _, _, _ => none

/-- Parse the body of a JSON string literal after the opening quote,
undoing escapes, up to and including the closing quote.  (Surrogate-pair
escapes are omitted: the printer never emits them and `Char` cannot hold
a lone surrogate.) -/
def parseStringBody : List Char → Option (List Char × List Char)
  | [] => none
  | '"' :: rest => some ([], rest)
  | '\\' :: 'u' :: h1 :: h2 :: h3 :: h4 :: rest =>
    match hexQuad h1 h2 h3 h4 with
    | some d => (parseStringBody rest).map (fun p => (d :: p.1, p.2))
    | none => none
  | '\\' :: e :: rest =>
    match escCharVal e with
    | some d => (parseStringBody rest).map (fun p => (d :: p.1, p.2))
    | none => none
  | ['\\'] => none
  | c :: rest => (parseStringBody rest).map (fun p => (c :: p.1, p.2))

def isDigitChar (c : Char) : Bool := 48 ≤ c.toNat && c.toNat ≤ 57

def digitVal (c : Char) : Nat := c.toNat - 48

def parseDigits : Nat → List Char → Nat × List Char
  | acc, [] => (acc, [])
  | acc, c :: rest =>
    if isDigitChar c then parseDigits (acc * 10 + digitVal c) rest else (acc, c :: rest)

def parseIntTok : List Char → Option (Int × List Char)
  | '-' :: d :: rest =>
    if isDigitChar d then
      let p := parseDigits 0 (d :: rest)
      some (-(p.1 : Int), p.2)
    else none
  | ['-'] => none
  | c :: rest =>
    if isDigitChar c then
      let p := parseDigits 0 (c :: rest)
      some ((p.1 : Int), p.2)
    else none
  | [] => none

mutual

def parseValue : Nat → List Char → Option (JValue × List Char)
  | 0, _ => none
  | fuel + 1, input =>
    match skipWs input with
    | [] => none
    | c :: rest =>
      if c = '"' then (parseStringBody rest).map (fun p => (JValue.jstr (String.mk p.1), p.2))
      else if c = '[' then
        match skipWs rest with
        | ']' :: r2 => some (JValue.jarr [], r2)
        | r2 => (parseElems fuel r2).map (fun p => (JValue.jarr p.1, p.2))
      else if c = '{' then
        match skipWs rest with
        | '}' :: r2 => some (JValue.jobj [], r2)
        | r2 => (parseFields fuel r2).map (fun p => (JValue.jobj p.1, p.2))
      else (parseIntTok (c :: rest)).map (fun p => (JValue.jint p.1, p.2))

def parseElems : Nat → List Char → Option (List JValue × List Char)
  | 0, _ => none
  | fuel + 1, input =>
    match parseValue fuel input with
    | none => none
    | some (v, r) =>
      match skipWs r with
      | ',' :: r2 =>
        match parseElems fuel r2 with
        | none => none
        | some (vs, r3) => some (v :: vs, r3)
      | ']' :: r2 => some ([v], r2)
      | _ => none

def parseFields : Nat → List Char → Option (List (String × JValue) × List Char)
  | 0, _ => none
  | fuel + 1, input =>
    match skipWs input with
    | '"' :: r =>
      match parseStringBody r with
      | none => none
      | some (k, r2) =>
        match skipWs r2 with
        | ':' :: r3 =>
          match parseValue fuel r3 with
          | none => none
          | some (v, r4) =>
            match skipWs r4 with
            | ',' :: r5 =>
              match parseFields fuel r5 with
              | none => none
              | some (fs, r6) => some ((String.mk k, v) :: fs, r6)
            | '}' :: r5 => some ([(String.mk k, v)], r5)
            | _ => none
        | _ => none
    | _ => none

end

/-! ### Extraction of a `Memo` from a parsed JSON value -/

def jLookup (fields : List (String × JValue)) (k : String) : Option JValue :=
  match fields with
  | [] => none
  | (k2, v) :: r => if k2 = k then some v else jLookup r k

def asJStr : JValue → Option String
  | .jstr s => some s
  | _ => none

def mapStrs : List JValue → Option (List String)
  | [] => some []
  | v :: r =>
    match v with
    | .jstr s => (mapStrs r).map (fun l => s :: l)
    | _ => none

def asJStrList : JValue → Option (List String)
  | .jarr es => mapStrs es
  | _ => none

def asI32 : JValue → Option Int
  | .jint n => if -2147483648 ≤ n ∧ n ≤ 2147483647 then some n else none
  | _ => none

def memoFromJson (v : JValue) : Option Memo :=
  match v with
  | .jobj fs =>
    match jLookup fs "cmd", jLookup fs "cwd", jLookup fs "exit_code",
        jLookup fs "timestamp", jLookup fs "digest" with
    | some jc, some jw, some je, some jt, some jd =>
      match asJStrList jc, asJStr jw, asI32 je, asJStr jt, asJStr jd with
      | some cmd, some cwd, some ec, some ts, some dg => some ⟨cmd, cwd, ec, ts, dg⟩
      | _, _, _, _, _ => none
    | _, _, _, _, _ => none
  | _ => none

/-- `serde_json::from_str::<Memo>`: parse the document, require only
trailing whitespace, extract the record. -/
def from_str (s : String) : Option Memo :=
  match parseValue (s.length + 1) s.toList with
  | some (v, rest) => if skipWs rest = [] then memoFromJson v else none
  | none => none

/-! value-level parse lemmas -/

/-- The JSON value of a `Memo`, as produced by the derived `Serialize`. -/
def memoJValue (m : Memo) : JValue :=
  JValue.jobj [("cmd", JValue.jarr (m.cmd.map JValue.jstr)), ("cwd", JValue.jstr m.cwd),
    ("exit_code", JValue.jint m.exit_code), ("timestamp", JValue.jstr m.timestamp),
    ("digest", JValue.jstr m.digest)]

/-! ## Constants (`constants.rs`) -/

def CACHE_DIR_PERMISSIONS : Nat := 0o700

def FILE_PERMISSIONS : Nat := 0o600

def LOCK_WAIT_TIMEOUT_SECS : Nat := 2

def LOCK_WAIT_INTERVAL_MS : Nat := 25

/-! ## Cache store model (`cache.rs`)

The cache root is a directory listing: each entry has a name, a
directory flag, an optional last-modified time (in seconds; `none` when
the OS cannot report it) and, for digest/staging directories, the three
cache files.  A file that is absent is `none`; `meta` holds the text of
`meta.json`, `stdout`/`stderr` hold raw bytes.
-/

structure EntryFiles where
  meta : Option String
  stdout : Option (List Nat)
  stderr : Option (List Nat)
deriving DecidableEq

def emptyFiles : EntryFiles := ⟨none, none, none⟩

structure DirEnt where
  name : String
  isDir : Bool
  modified : Option Nat
  files : EntryFiles
deriving DecidableEq

def findEntry (root : List DirEnt) (nm : String) : Option DirEnt :=
  root.find? (fun e => e.name == nm)

/-- `memo_complete`: the digest directory exists with `meta.json`,
`stdout` and `stderr`.  A non-directory entry named like the digest has
none of the three joined paths, so it does not count. -/
def memo_complete (root : List DirEnt) (digest : String) : Bool :=
  match findEntry root digest with
  | some e => e.isDir && e.files.meta.isSome && e.files.stdout.isSome && e.files.stderr.isSome
  | none => false

/-- `stream_stdout`: open `<digest>/stdout` and copy its bytes to the
writer.  `none` models the `File::open` failure. -/
def stream_stdout (root : List DirEnt) (digest : String) : Option (List Nat) :=
  match findEntry root digest with
  | some e => if e.isDir then e.files.stdout else none
  | none => none

/-- `stream_stderr`: open `<digest>/stderr` and copy its bytes. -/
def stream_stderr (root : List DirEnt) (digest : String) : Option (List Nat) :=
  match findEntry root digest with
  | some e => if e.isDir then e.files.stderr else none
  | none => none

/-- `read_memo_metadata`: read `<digest>/meta.json` and parse it. -/
def read_memo_metadata (root : List DirEnt) (digest : String) : Option Memo :=
  match findEntry root digest with
  | some e =>
    if e.isDir then
      match e.files.meta with
      | some txt => from_str txt
      | none => none
    else none
  | none => none

/-- `write_memo` (cfg(test) helper in `cache.rs`): `create_dir_all` the
digest directory, then write the pretty JSON, the stdout bytes and the
stderr bytes.  `none` models failure (an existing non-directory entry
blocks `create_dir_all`/the writes). -/
def write_memo (root : List DirEnt) (digest : String) (m : Memo)
    (stdoutB stderrB : List Nat) (now : Nat) : Option (List DirEnt) :=
  match findEntry root digest with
  | some e =>
    if e.isDir then
      some (root.map (fun e2 =>
        if e2.name == digest then
          { e2 with files := ⟨some (to_string_pretty m), some stdoutB, some stderrB⟩ }
        else e2))
    else none
  | none =>
    some (root ++ [⟨digest, true, some now,
      ⟨some (to_string_pretty m), some stdoutB, some stderrB⟩⟩])

/-- `read_memo` (cfg(test) helper): read and parse `meta.json`, read
both byte files. -/
def read_memo (root : List DirEnt) (digest : String) :
    Option (Memo × List Nat × List Nat) :=
  match findEntry root digest with
  | some e =>
    if e.isDir then
      match e.files.meta, e.files.stdout, e.files.stderr with
      | some txt, some ob, some eb => (from_str txt).map (fun m => (m, ob, eb))
      | _, _, _ => none
    else none
  | none => none

/-! ### Staging directories and atomic commit -/

structure TempCacheDir where
  path : String
  committed : Bool
deriving DecidableEq

/-- The staging name `<digest>.tmp.<pid>.<timestamp>`. -/
def tempDirName (digest : String) (pid ts : Nat) : String :=
  digest ++ ".tmp." ++ toString pid ++ "." ++ toString ts

/-- `create_temp_cache_dir`: make the uniquely named staging directory
(with `committed := false`) and add it to the root listing. -/
def create_temp_cache_dir (root : List DirEnt) (digest : String) (pid ts now : Nat) :
    TempCacheDir × List DirEnt :=
  (⟨tempDirName digest pid ts, false⟩,
   root ++ [⟨tempDirName digest pid ts, true, some now, emptyFiles⟩])

inductive CommitRes where
  | ok (won : Bool)
  | ioErr
deriving DecidableEq

def renameEntry (root : List DirEnt) (src dst : String) : List DirEnt :=
  root.map (fun e => if e.name == src then { e with name := dst } else e)

/-- `commit_cache_dir`: `fs::rename` the staging directory onto the
digest directory.  Per the spec of the move primitive, the rename fails
distinctly (`AlreadyExists`) iff the destination exists, in which case
the code returns `Ok(false)` and leaves `committed` unset; `renameGlitch`
is an oracle for any other I/O failure of the rename, which the code
propagates as `Err`.  On success the buffer is marked committed. -/
def commit_cache_dir (temp : TempCacheDir) (root : List DirEnt) (digest : String)
    (renameGlitch : Bool) : CommitRes × TempCacheDir × List DirEnt :=
  if (findEntry root digest).isSome then
    (CommitRes.ok false, temp, root)
  else if renameGlitch then
    (CommitRes.ioErr, temp, root)
  else
    (CommitRes.ok true, { temp with committed := true }, renameEntry root temp.path digest)

/-- `Drop for TempCacheDir`: remove the staging directory unless it was
committed. -/
def tempCacheDir_drop (temp : TempCacheDir) (root : List DirEnt) : List DirEnt :=
  if temp.committed then root else root.filter (fun e => !(e.name == temp.path))

/-! ### Orphan sweep -/

/-- Substring containment, as in Rust `str::contains`. -/
def isPrefixOfChars : List Char → List Char → Bool
  | [], _ => true
  | _ :: _, [] => false
  | c :: p, d :: h => c == d && isPrefixOfChars p h

def containsSub : List Char → List Char → Bool
  | hay, pat =>
    match hay with
    | [] => pat.isEmpty
    | _ :: rest => isPrefixOfChars pat hay || containsSub rest pat

/-- The staging-name marker `".tmp."`. -/
def tmpMarker : List Char := ['.', 't', 'm', 'p', '.']

/-- `SystemTime::now().checked_sub(24h)`, in seconds. -/
def cleanupCutoff (now : Nat) : Option Nat :=
  if 86400 ≤ now then some (now - 86400) else none

/-- `cleanup_temp_dirs`, translated from the `for` loop: skip files,
skip names without `".tmp."`, skip when there is no cutoff, skip when
the metadata/modified time cannot be read, delete when strictly older
than the cutoff. -/
def cleanup_temp_dirs (cutoff : Option Nat) : List DirEnt → List DirEnt
  | [] => []
  | e :: rest =>
    let keep := cleanup_temp_dirs cutoff rest
    if !e.isDir then e :: keep
    else if !(containsSub e.name.toList tmpMarker) then e :: keep
    else
      match cutoff with
      | none => e :: keep
      | some c =>
        match e.modified with
        | none => e :: keep
        | some mt => if mt < c then keep else e :: keep

/-- The delete condition of the sweep, as a predicate. -/
def sweptBy (c : Nat) (e : DirEnt) : Bool :=
  e.isDir && containsSub e.name.toList tmpMarker &&
    (match e.modified with
     | some mt => decide (mt < c)
     | none => false)

/-! ## Output capture (`executor.rs`) -/

structure TeeState where
  fileBytes : List Nat
  consoleBytes : List Nat
  storedError : Option Nat
deriving DecidableEq

inductive WriteOutcome where
  | ok (n : Nat)
  | werr (e : Nat)
deriving DecidableEq

/-- `TeeWriter::write`: write the buffer to the file first, then always
to the console; store the first file error; propagate only the console
result.  `fileRes`/`consoleRes` are the I/O outcomes of the two
`write_all` calls (`none` is success, `some e` failure `e`). -/
def teeWrite (st : TeeState) (buf : List Nat) (fileRes consoleRes : Option Nat) :
    WriteOutcome × TeeState :=
  let st1 := match fileRes with
    | none => { st with fileBytes := st.fileBytes ++ buf }
    | some _ => st
  let st2 := match consoleRes with
    | none => { st1 with consoleBytes := st1.consoleBytes ++ buf }
    | some _ => st1
  let st3 := match fileRes with
    | some e =>
      match st2.storedError with
      | none => { st2 with storedError := some e }
      | some _ => st2
    | none => st2
  match consoleRes with
  | some e => (WriteOutcome.werr e, st3)
  | none => (WriteOutcome.ok buf.length, st3)

/-- `io::copy` from the child pipe through a `TeeWriter`: one `write`
per chunk, stopping at the first error returned by `write`. -/
def tee_copy : TeeState → List (List Nat × Option Nat × Option Nat) → Option Nat × TeeState
  | st, [] => (none, st)
  | st, (buf, fres, cres) :: rest =>
    match teeWrite st buf fres cres with
    | (WriteOutcome.ok _, st2) => tee_copy st2 rest
    | (WriteOutcome.werr e, st2) => (some e, st2)

structure ExecutionResult where
  exit_code : Int
  stdout_error : Option Nat
  stderr_error : Option Nat
deriving DecidableEq

/-! ## Coordinator (`main.rs`) -/

inductive MErr where
  | io
  | lockTimeout
deriving DecidableEq

inductive ProcOut where
  | exit (code : Int)
  | err (e : MErr)
deriving DecidableEq

inductive Effect where
  | outWrite (bs : List Nat)
  | errWrite (bs : List Nat)
  | execCmd
  | purge
  | writeMeta
  | sleepMs (n : Nat)
deriving DecidableEq

/-- The hit-replay sequence (`main.rs` lines 113-127 and the two in-loop
replay branches): read metadata, stream cached stdout, stream cached
stderr, exit with the stored code; every `?` propagates as an error. -/
def replay_cached (root : List DirEnt) (digest : String) : ProcOut × List Effect :=
  match read_memo_metadata root digest with
  | none => (ProcOut.err MErr.io, [])
  | some m =>
    match stream_stdout root digest with
    | none => (ProcOut.err MErr.io, [])
    | some ob =>
      match stream_stderr root digest with
      | none => (ProcOut.err MErr.io, [Effect.outWrite ob])
      | some eb => (ProcOut.exit m.exit_code, [Effect.outWrite ob, Effect.errWrite eb])

/-- The top-level completeness dispatch of `run`: on a complete entry,
replay; otherwise take the miss branch. -/
def run_cached_or (root : List DirEnt) (digest : String)
    (missBranch : ProcOut × List Effect) : ProcOut × List Effect :=
  if memo_complete root digest then replay_cached root digest else missBranch

/-- Oracle for the I/O performed by the miss body after the lock is
held (`main.rs` lines 150-187). -/
structure MissEnv where
  execRes : Option ExecutionResult
  jsonCreateOk : Bool
  jsonWriteOk : Bool
  streamOutRes : Option (List Nat)
  streamErrRes : Option (List Nat)
deriving DecidableEq

/-- The miss body: purge any partial entry, execute the command through
the tee (its result `execRes`, including tee-captured file-write errors,
is the oracle), serialize the metadata, `create_secure_file` + write the
JSON, re-stream both cached files to the console, exit with the
command's code.  Every `?` propagates as an error, which `main` turns
into exit code 1. -/
def run_miss_body (env : MissEnv) : ProcOut × List Effect :=
  match env.execRes with
  | none => (ProcOut.err MErr.io, [Effect.purge, Effect.execCmd])
  | some r =>
    if !env.jsonCreateOk then (ProcOut.err MErr.io, [Effect.purge, Effect.execCmd])
    else if !env.jsonWriteOk then
      (ProcOut.err MErr.io, [Effect.purge, Effect.execCmd, Effect.writeMeta])
    else
      match env.streamOutRes with
      | none => (ProcOut.err MErr.io, [Effect.purge, Effect.execCmd, Effect.writeMeta])
      | some ob =>
        match env.streamErrRes with
        | none =>
          (ProcOut.err MErr.io,
            [Effect.purge, Effect.execCmd, Effect.writeMeta, Effect.outWrite ob])
        | some eb =>
          (ProcOut.exit r.exit_code,
            [Effect.purge, Effect.execCmd, Effect.writeMeta, Effect.outWrite ob,
             Effect.errWrite eb])

inductive AcquireRes where
  | ok
  | alreadyExists
  | otherErr
deriving DecidableEq

/-- One iteration's observations: the result of `try_acquire_lock`, the
cache root as seen by this iteration, the oracle for the miss body, and
`Instant::now()` (in ms) at the deadline check. -/
structure LoopObs where
  acquire : AcquireRes
  root : List DirEnt
  missEnv : MissEnv
  now : Nat
deriving DecidableEq

/-- `wait_deadline = Instant::now() + Duration::from_secs(LOCK_WAIT_TIMEOUT_SECS)`,
in ms. -/
def wait_deadline (start : Nat) : Nat := start + 1000 * LOCK_WAIT_TIMEOUT_SECS

/-- The lock-acquisition loop of `run` (`main.rs` lines 135-208).  The
oracle list supplies one observation per iteration; the empty-list case
is a model artifact (the source loop only ends through one of the
returns). -/
def lockLoop (digest : String) (deadline : Nat) : List LoopObs → ProcOut × List Effect
  | [] => (ProcOut.err MErr.io, [])
  | o :: rest =>
    match o.acquire with
    | AcquireRes.ok =>
      if memo_complete o.root digest then replay_cached o.root digest
      else run_miss_body o.missEnv
    | AcquireRes.alreadyExists =>
      if memo_complete o.root digest then replay_cached o.root digest
      else if deadline ≤ o.now then (ProcOut.err MErr.lockTimeout, [])
      else
        let p := lockLoop digest deadline rest
        (p.1, Effect.sleepMs LOCK_WAIT_INTERVAL_MS :: p.2)
    | AcquireRes.otherErr => (ProcOut.err MErr.io, [])

/-! ### Pigeonhole machinery: a digest is one of finitely many strings -/

def hexTable : List Char := "0123456789abcdef".toList

/-- Code a 64-character hex string as a point of the finite type
`Fin 64 → Fin 16`. -/
def digestCode (s : String) (i : Fin 64) : Fin 16 :=
  ⟨hexTable.indexOf (s.toList.getD i.val ' ') % 16, Nat.mod_lt _ (by norm_num)⟩

/-! ## Concrete fixtures for the witnesses -/

def wMemo : Memo := ⟨["echo", "hi"], "/w", 0, "t", "k"⟩

def wRoot : List DirEnt :=
  [⟨"k", true, some 5, ⟨some (to_string_pretty wMemo), some [104, 105], some [0, 255]⟩⟩]

def wObs : LoopObs := ⟨AcquireRes.alreadyExists, [], ⟨none, true, true, none, none⟩, 5000⟩

def wMemoNeg : Memo := ⟨["sh"], "/w", -9, "ts", "k"⟩

def wRootNeg : List DirEnt :=
  [⟨"k", true, some 3, ⟨some (to_string_pretty wMemoNeg), some [0, 255, 10], some [7]⟩⟩]

def wDigestEnt : DirEnt :=
  ⟨compute_digest_for_args ["echo", "hi"] "/w", true, some 0, emptyFiles⟩

def sweepRoot : List DirEnt :=
  [⟨"aa.tmp.1.2", true, some 10, emptyFiles⟩,
   ⟨"bb.tmp.3.4", true, some 99000, emptyFiles⟩,
   ⟨"cc.tmp.5.6", true, none, emptyFiles⟩]

def badMissEnv : MissEnv := ⟨some ⟨7, none, none⟩, true, false, some [], some []⟩

def goodMissEnv : MissEnv := ⟨some ⟨7, some 3, none⟩, true, true, some [1], some []⟩

/-! ## Theorems -/

theorem utf8DecodeStep_length {b : Nat} {rest : List Nat} {n : Nat} {r : List Nat}
    (h : utf8DecodeStep b rest = some (n, r)) : r.length ≤ rest.length := by
  unfold utf8DecodeStep at h
  split at h
  · cases h; exact Nat.le_refl _
  · split at h
    · split at h
      · cases h; simp
      · cases h
    · split at h
      · split at h
        · cases h; simp; omega
        · cases h
      · split at h
        · cases h; simp; omega
        · cases h

theorem char_toNat_lt (c : Char) : c.toNat < 1114112 := by
  rcases c.valid with h | h
  · exact Nat.lt_trans h (by decide)
  · exact h.2

theorem utf8Char_decodes (c : Char) (rest : List Nat) :
    ∃ b t, utf8Char c = b :: t ∧ utf8DecodeStep b (t ++ rest) = some (c.toNat, rest) := by
  have hlt := char_toNat_lt c
  unfold utf8Char
  by_cases h1 : c.toNat < 128
  · refine ⟨c.toNat, [], by simp [h1], ?_⟩
    unfold utf8DecodeStep
    simp [h1]
  · by_cases h2 : c.toNat < 2048
    · refine ⟨192 + c.toNat / 64, [128 + c.toNat % 64], by simp [h1, h2], ?_⟩
      unfold utf8DecodeStep
      have hb : ¬ (192 + c.toNat / 64 < 128) := by omega
      have hb2 : 192 + c.toNat / 64 < 224 := by omega
      simp only [if_neg hb, if_pos hb2, List.cons_append, List.nil_append]
      congr 2
      omega
    · by_cases h3 : c.toNat < 65536
      · refine ⟨224 + c.toNat / 4096, [128 + c.toNat / 64 % 64, 128 + c.toNat % 64],
          by simp [h1, h2, h3], ?_⟩
        unfold utf8DecodeStep
        have hb : ¬ (224 + c.toNat / 4096 < 128) := by omega
        have hb2 : ¬ (224 + c.toNat / 4096 < 224) := by omega
        have hb3 : 224 + c.toNat / 4096 < 240 := by omega
        simp only [if_neg hb, if_neg hb2, if_pos hb3, List.cons_append, List.nil_append]
        congr 2
        omega
      · refine ⟨240 + c.toNat / 262144,
          [128 + c.toNat / 4096 % 64, 128 + c.toNat / 64 % 64, 128 + c.toNat % 64],
          by simp [h1, h2, h3], ?_⟩
        unfold utf8DecodeStep
        have hb : ¬ (240 + c.toNat / 262144 < 128) := by omega
        have hb2 : ¬ (240 + c.toNat / 262144 < 224) := by omega
        have hb3 : ¬ (240 + c.toNat / 262144 < 240) := by omega
        simp only [if_neg hb, if_neg hb2, if_neg hb3, List.cons_append, List.nil_append]
        congr 2
        omega

theorem utf8Decode_utf8Char (c : Char) (rest : List Nat) :
    utf8Decode (utf8Char c ++ rest) = (utf8Decode rest).map (fun l => c :: l) := by
  obtain ⟨b, t, henc, hstep⟩ := utf8Char_decodes c rest
  rw [henc, List.cons_append]
  rw [utf8Decode]
  split
  · rename_i hnone
    rw [hstep] at hnone
    cases hnone
  · rename_i n r hsome
    rw [hstep] at hsome
    cases hsome
    rw [Char.ofNat_toNat]

theorem utf8Decode_utf8Str (s : List Char) : utf8Decode (utf8Str s) = some s := by
  induction s with
  | nil => simp [utf8Str, utf8Decode]
  | cons c r ih => rw [utf8Str, utf8Decode_utf8Char, ih]; rfl

theorem utf8Str_injective : Function.Injective utf8Str := by
  intro s1 s2 h
  have h1 := utf8Decode_utf8Str s1
  have h2 := utf8Decode_utf8Str s2
  rw [h, h2] at h1
  exact (Option.some_injective _ h1).symm

/-- Pin the SHA-256 implementation to a FIPS 180-4 test vector. -/
example : hex_encode (sha256 (utf8Str "abc".toList)) =
    "ba7816bf8f01cfea414140de5dae2223b00361a396177a9cb410ff61f20015ad" := by
  decide

theorem prettyCmdElems_cons (s : String) (r : List String) :
    prettyCmdElems (s :: r) = indentChars 2 ++ (jsonStringChars s ++ elemsTail r) := by
  cases r with
  | nil => rfl
  | cons a b => rfl

/-! ### Round-trip lemmas for the JSON layer -/

theorem toNat_ofNat_small {n : Nat} (h : n < 55296) : (Char.ofNat n).toNat = n := by
  have hv : n.isValidChar := Or.inl h
  rw [Char.ofNat, dif_pos hv]
  rfl

theorem hexDigitVal_hexNibble (m : Nat) : hexDigitVal (hexNibble m) = some (m % 16) := by
  have h : m % 16 < 16 := Nat.mod_lt m (by norm_num)
  unfold hexNibble
  interval_cases h16 : m % 16 <;> simp_all <;> decide

theorem hexQuad_control (n : Nat) (h : n < 32) :
    hexQuad '0' '0' (hexNibble (n / 16)) (hexNibble n) = some (Char.ofNat n) := by
  unfold hexQuad
  rw [hexDigitVal_hexNibble, hexDigitVal_hexNibble]
  have hd0 : hexDigitVal '0' = some 0 := by decide
  rw [hd0]
  have harith : ((0 * 16 + 0) * 16 + n / 16 % 16) * 16 + n % 16 = n := by omega
  show some (Char.ofNat (((0 * 16 + 0) * 16 + n / 16 % 16) * 16 + n % 16)) = some (Char.ofNat n)
  rw [harith]

theorem parseStringBody_escapeChar (c : Char) (t : List Char) :
    parseStringBody (escapeChar c ++ t) =
      (parseStringBody t).map (fun p => (c :: p.1, p.2)) := by
  unfold escapeChar
  by_cases hq : c = '"'
  · subst hq; rfl
  · by_cases hb : c = '\\'
    · subst hb; rfl
    · by_cases hctl : c.toNat < 32
      · by_cases h8 : c.toNat = 8
        · have hc : Char.ofNat 8 = c := by rw [← h8, Char.ofNat_toNat]
          simp only [if_neg hq, if_neg hb, if_pos hctl, if_pos h8, List.cons_append,
            List.nil_append]
          rw [← hc]
          rfl
        · by_cases h9 : c.toNat = 9
          · have hc : Char.ofNat 9 = c := by rw [← h9, Char.ofNat_toNat]
            simp only [if_neg hq, if_neg hb, if_pos hctl, if_neg h8, if_pos h9,
              List.cons_append, List.nil_append]
            rw [← hc]
            rfl
          · by_cases h10 : c.toNat = 10
            · have hc : Char.ofNat 10 = c := by rw [← h10, Char.ofNat_toNat]
              simp only [if_neg hq, if_neg hb, if_pos hctl, if_neg h8, if_neg h9, if_pos h10,
                List.cons_append, List.nil_append]
              rw [← hc]
              rfl
            · by_cases h12 : c.toNat = 12
              · have hc : Char.ofNat 12 = c := by rw [← h12, Char.ofNat_toNat]
                simp only [if_neg hq, if_neg hb, if_pos hctl, if_neg h8, if_neg h9, if_neg h10,
                  if_pos h12, List.cons_append, List.nil_append]
                rw [← hc]
                rfl
              · by_cases h13 : c.toNat = 13
                · have hc : Char.ofNat 13 = c := by rw [← h13, Char.ofNat_toNat]
                  simp only [if_neg hq, if_neg hb, if_pos hctl, if_neg h8, if_neg h9, if_neg h10,
                    if_neg h12, if_pos h13, List.cons_append, List.nil_append]
                  rw [← hc]
                  rfl
                · simp only [if_neg hq, if_neg hb, if_pos hctl, if_neg h8, if_neg h9,
                    if_neg h10, if_neg h12, if_neg h13, List.cons_append, List.nil_append]
                  rw [parseStringBody, hexQuad_control c.toNat hctl, Char.ofNat_toNat]
      · simp only [if_neg hq, if_neg hb, if_neg hctl, List.cons_append, List.nil_append]
        rw [parseStringBody]
        · exact fun h => hq h
        · exact fun _ _ _ _ _ h _ => hb h
        · exact fun _ _ h _ => hb h
        · exact fun h _ => hb h

theorem parseStringBody_escapeString (sl : List Char) (rest : List Char) :
    parseStringBody (escapeString sl ++ '"' :: rest) = some (sl, rest) := by
  induction sl with
  | nil => simp [escapeString, parseStringBody]
  | cons c r ih =>
    rw [escapeString, List.append_assoc, parseStringBody_escapeChar, ih]
    rfl

theorem mk_toList (s : String) : String.mk s.toList = s := rfl

/-! whitespace helpers -/

theorem skipWs_append (ws l : List Char) (h : ∀ c ∈ ws, isWsChar c) :
    skipWs (ws ++ l) = skipWs l := by
  induction ws with
  | nil => rfl
  | cons c r ih =>
    rw [List.cons_append, skipWs, if_pos (h c (by simp))]
    exact ih (fun c hc => h c (by simp [hc]))

theorem skipWs_not_ws (c : Char) (l : List Char) (h : isWsChar c = false) :
    skipWs (c :: l) = c :: l := by
  rw [skipWs, if_neg (by simp [h])]

theorem allWs_indent (n : Nat) : ∀ c ∈ indentChars n, isWsChar c := by
  intro c hc
  rw [indentChars] at hc
  have := List.eq_of_mem_replicate hc
  subst this
  decide

/-! decimal digits round trip -/

theorem natCharsFuel_congr : ∀ f1 f2 n, n < f1 → n < f2 → natCharsFuel f1 n = natCharsFuel f2 n := by
  intro f1
  induction f1 with
  | zero => intro f2 n h; omega
  | succ a ih =>
    intro f2 n h1 h2
    match f2, h2 with
    | b + 1, h2 =>
      rw [natCharsFuel, natCharsFuel]
      by_cases h10 : n < 10
      · rw [if_pos h10, if_pos h10]
      · rw [if_neg h10, if_neg h10]
        have hdiv : n / 10 < n := Nat.div_lt_self (by omega) (by omega)
        rw [ih b (n / 10) (by omega) (by omega)]

theorem natChars_lt10 {n : Nat} (h : n < 10) : natChars n = [digitChar n] := by
  rw [natChars, natCharsFuel, if_pos h]

theorem natChars_ge10 {n : Nat} (h : 10 ≤ n) :
    natChars n = natChars (n / 10) ++ [digitChar n] := by
  rw [natChars, natCharsFuel, if_neg (by omega)]
  have hdiv : n / 10 < n := Nat.div_lt_self (by omega) (by omega)
  rw [natCharsFuel_congr n (n / 10 + 1) (n / 10) (by omega) (by omega)]
  rfl

theorem digitChar_isDigit (n : Nat) : isDigitChar (digitChar n) = true := by
  have h : (digitChar n).toNat = 48 + n % 10 := by
    rw [digitChar, toNat_ofNat_small (by omega)]
  rw [isDigitChar, h]
  have : n % 10 < 10 := Nat.mod_lt n (by omega)
  simp only [Bool.and_eq_true, decide_eq_true_eq]
  omega

theorem digitVal_digitChar (n : Nat) : digitVal (digitChar n) = n % 10 := by
  have h : (digitChar n).toNat = 48 + n % 10 := by
    rw [digitChar, toNat_ofNat_small (by omega)]
  rw [digitVal, h]
  omega

theorem parseDigits_stop (acc : Nat) (l : List Char)
    (h : ∀ c t, l = c :: t → isDigitChar c = false) : parseDigits acc l = (acc, l) := by
  cases l with
  | nil => rfl
  | cons c t => rw [parseDigits, if_neg (by simp [h c t rfl])]

theorem parseDigits_natChars :
    ∀ n, ∃ p, 0 < p ∧
      ∀ acc rest, parseDigits acc (natChars n ++ rest) = parseDigits (acc * p + n) rest := by
  intro n
  induction n using Nat.strong_induction_on with
  | _ n ih =>
    by_cases h10 : n < 10
    · refine ⟨10, by omega, fun acc rest => ?_⟩
      rw [natChars_lt10 h10, List.cons_append, List.nil_append, parseDigits,
        if_pos (digitChar_isDigit n), digitVal_digitChar]
      rw [Nat.mod_eq_of_lt h10]
    · have hdiv : n / 10 < n := Nat.div_lt_self (by omega) (by omega)
      obtain ⟨p, hp, hP⟩ := ih (n / 10) hdiv
      refine ⟨p * 10, by omega, fun acc rest => ?_⟩
      rw [natChars_ge10 (by omega), List.append_assoc, hP, List.cons_append, List.nil_append,
        parseDigits, if_pos (digitChar_isDigit n), digitVal_digitChar]
      have e1 : (acc * p + n / 10) * 10 + n % 10 = acc * (p * 10) + n := by
        have hn : n / 10 * 10 + n % 10 = n := by omega
        calc (acc * p + n / 10) * 10 + n % 10
            = acc * (p * 10) + (n / 10 * 10 + n % 10) := by ring
          _ = acc * (p * 10) + n := by rw [hn]
      rw [e1]

theorem natChars_head_digit :
    ∀ n, ∃ c t, natChars n = c :: t ∧ isDigitChar c = true := by
  intro n
  induction n using Nat.strong_induction_on with
  | _ n ih =>
    by_cases h10 : n < 10
    · exact ⟨digitChar n, [], natChars_lt10 h10, digitChar_isDigit n⟩
    · have hdiv : n / 10 < n := Nat.div_lt_self (by omega) (by omega)
      obtain ⟨c, t, he, hd⟩ := ih (n / 10) hdiv
      exact ⟨c, t ++ [digitChar n], by rw [natChars_ge10 (by omega), he]; rfl, hd⟩

theorem digit_not_dash {c : Char} (h : isDigitChar c = true) : ¬ c = '-' := by
  intro he
  subst he
  simp [isDigitChar] at h

theorem parseIntTok_intChars (e : Int) (rest : List Char)
    (hrest : ∀ c t, rest = c :: t → isDigitChar c = false) :
    parseIntTok (intChars e ++ rest) = some (e, rest) := by
  by_cases hneg : e < 0
  · rw [intChars, if_pos hneg]
    obtain ⟨c, t, he, hd⟩ := natChars_head_digit (-e).toNat
    obtain ⟨p, hp, hP⟩ := parseDigits_natChars (-e).toNat
    have hpd : parseDigits 0 (c :: (t ++ rest)) = ((-e).toNat, rest) := by
      have hback : c :: (t ++ rest) = natChars (-e).toNat ++ rest := by rw [he]; rfl
      rw [hback, hP, Nat.zero_mul, Nat.zero_add, parseDigits_stop _ _ hrest]
    rw [he, List.cons_append, List.cons_append, parseIntTok, if_pos hd]
    simp only [hpd]
    have hval : -(((-e).toNat : Int)) = e := by omega
    rw [hval]
  · rw [intChars, if_neg hneg]
    obtain ⟨c, t, he, hd⟩ := natChars_head_digit e.toNat
    obtain ⟨p, hp, hP⟩ := parseDigits_natChars e.toNat
    have hpd : parseDigits 0 (c :: (t ++ rest)) = (e.toNat, rest) := by
      have hback : c :: (t ++ rest) = natChars e.toNat ++ rest := by rw [he]; rfl
      rw [hback, hP, Nat.zero_mul, Nat.zero_add, parseDigits_stop _ _ hrest]
    rw [he, List.cons_append, parseIntTok]
    · rw [if_pos hd]
      simp only [hpd]
      have hval : ((e.toNat : Int)) = e := by omega
      rw [hval]
    · exact fun _ _ hdc _ => (digit_not_dash hd) hdc
    · exact fun hdc _ => (digit_not_dash hd) hdc

theorem char_ne_of_digit (x : Char) {c : Char} (hd : isDigitChar c = true)
    (hx : isDigitChar x = false) : ¬ c = x := by
  intro he
  subst he
  rw [hd] at hx
  cases hx

theorem digit_not_ws {c : Char} (hd : isDigitChar c = true) : isWsChar c = false := by
  rw [isWsChar]
  rw [beq_eq_false_iff_ne.mpr (char_ne_of_digit ' ' hd (by decide)),
    beq_eq_false_iff_ne.mpr (char_ne_of_digit '\n' hd (by decide)),
    beq_eq_false_iff_ne.mpr (char_ne_of_digit '\t' hd (by decide)),
    beq_eq_false_iff_ne.mpr (char_ne_of_digit '\x0d' hd (by decide))]
  rfl

theorem parseValue_string (fuel : Nat) (hf : 0 < fuel) (ws : List Char)
    (hws : ∀ c ∈ ws, isWsChar c) (s : String) (t : List Char) :
    parseValue fuel (ws ++ (jsonStringChars s ++ t)) = some (JValue.jstr s, t) := by
  obtain ⟨f, rfl⟩ : ∃ k, fuel = k + 1 := ⟨fuel - 1, by omega⟩
  rw [parseValue, jsonStringChars]
  have h1 : skipWs (ws ++ (('"' :: (escapeString s.toList ++ ['"'])) ++ t)) =
      '"' :: (escapeString s.toList ++ ('"' :: t)) := by
    rw [skipWs_append _ _ hws, List.cons_append, skipWs_not_ws _ _ (by decide),
      List.append_assoc]
    rfl
  rw [h1]
  simp only [reduceIte, parseStringBody_escapeString, Option.map_some, mk_toList]
  rfl

theorem intChars_head :
    ∀ e : Int, ∃ c t, intChars e = c :: t ∧ (isDigitChar c = true ∨ c = '-') := by
  intro e
  by_cases hneg : e < 0
  · exact ⟨'-', natChars (-e).toNat, by rw [intChars, if_pos hneg], Or.inr rfl⟩
  · obtain ⟨c, t, he, hd⟩ := natChars_head_digit e.toNat
    exact ⟨c, t, by rw [intChars, if_neg hneg, he], Or.inl hd⟩

theorem intHead_not_ws {c : Char} (h : isDigitChar c = true ∨ c = '-') : isWsChar c = false := by
  rcases h with hd | rfl
  · exact digit_not_ws hd
  · decide

theorem parseValue_int (fuel : Nat) (hf : 0 < fuel) (ws : List Char)
    (hws : ∀ c ∈ ws, isWsChar c) (e : Int) (c0 : Char) (t : List Char)
    (h0 : isDigitChar c0 = false) :
    parseValue fuel (ws ++ (intChars e ++ (c0 :: t))) = some (JValue.jint e, c0 :: t) := by
  obtain ⟨f, rfl⟩ : ∃ k, fuel = k + 1 := ⟨fuel - 1, by omega⟩
  obtain ⟨c, tl, he, hh⟩ := intChars_head e
  rw [parseValue, he, List.cons_append]
  have h1 : skipWs (ws ++ (c :: (tl ++ (c0 :: t)))) = c :: (tl ++ (c0 :: t)) := by
    rw [skipWs_append _ _ hws, skipWs_not_ws _ _ (intHead_not_ws hh)]
  rw [h1]
  have hq : ¬ c = '"' := by
    rcases hh with hd | rfl
    · exact char_ne_of_digit '"' hd (by decide)
    · decide
  have hbrk : ¬ c = '[' := by
    rcases hh with hd | rfl
    · exact char_ne_of_digit '[' hd (by decide)
    · decide
  have hbrc : ¬ c = '{' := by
    rcases hh with hd | rfl
    · exact char_ne_of_digit '{' hd (by decide)
    · decide
  simp only [if_neg hq, if_neg hbrk, if_neg hbrc]
  have hback : c :: (tl ++ (c0 :: t)) = intChars e ++ (c0 :: t) := by rw [he]; rfl
  rw [hback, parseIntTok_intChars e (c0 :: t)
    (fun c2 t2 hct => by cases hct; exact h0)]
  rfl

theorem allWs_append {l1 l2 : List Char} (h1 : ∀ c ∈ l1, isWsChar c)
    (h2 : ∀ c ∈ l2, isWsChar c) : ∀ c ∈ l1 ++ l2, isWsChar c := by
  intro c hc
  rcases List.mem_append.mp hc with h | h
  · exact h1 c h
  · exact h2 c h

theorem skipWs_idem (l : List Char) : skipWs (skipWs l) = skipWs l := by
  induction l with
  | nil => rfl
  | cons c r ih =>
    rw [skipWs]
    by_cases h : isWsChar c
    · rw [if_pos h]; exact ih
    · rw [if_neg h, skipWs, if_neg h]

theorem parseValue_skipWs (fuel : Nat) (input : List Char) :
    parseValue fuel (skipWs input) = parseValue fuel input := by
  cases fuel with
  | zero => rfl
  | succ f => rw [parseValue, parseValue, skipWs_idem]

theorem parseElems_skipWs (fuel : Nat) (input : List Char) :
    parseElems fuel (skipWs input) = parseElems fuel input := by
  cases fuel with
  | zero => rfl
  | succ f => rw [parseElems, parseElems, parseValue_skipWs]

theorem parseFields_skipWs (fuel : Nat) (input : List Char) :
    parseFields fuel (skipWs input) = parseFields fuel input := by
  cases fuel with
  | zero => rfl
  | succ f => rw [parseFields, parseFields, skipWs_idem]

theorem parseElems_cmdAux :
    ∀ (r : List String) (s : String) (fuel : Nat) (ws t : List Char),
      r.length + 1 < fuel → (∀ c ∈ ws, isWsChar c) →
      parseElems fuel
          (ws ++ (jsonStringChars s ++
            (elemsTail r ++ ('\n' :: (indentChars 1 ++ (']' :: t)))))) =
        some ((s :: r).map JValue.jstr, t) := by
  intro r
  induction r with
  | nil =>
    intro s fuel ws t hfuel hws
    obtain ⟨f, rfl⟩ : ∃ k, fuel = k + 1 := ⟨fuel - 1, by omega⟩
    rw [parseElems]
    have h0 : elemsTail ([] : List String) = [] := rfl
    rw [h0]
    simp only [List.nil_append]
    rw [parseValue_string f (by omega) ws hws s _]
    rfl
  | cons s2 r' ih =>
    intro s fuel ws t hfuel hws
    obtain ⟨f, rfl⟩ : ∃ k, fuel = k + 1 := ⟨fuel - 1, by omega⟩
    rw [parseElems]
    have htail : elemsTail (s2 :: r') ++ ('\n' :: (indentChars 1 ++ (']' :: t))) =
        ',' :: (('\n' :: indentChars 2) ++
          (jsonStringChars s2 ++ (elemsTail r' ++ ('\n' :: (indentChars 1 ++ (']' :: t)))))) := by
      have h0 : elemsTail (s2 :: r') = ',' :: '\n' :: prettyCmdElems (s2 :: r') := rfl
      rw [h0, prettyCmdElems_cons]
      simp only [List.cons_append, List.append_assoc]
    rw [htail]
    rw [parseValue_string f (by omega) ws hws s _]
    simp only []
    rw [skipWs_not_ws _ _ (by decide)]
    simp only []
    rw [ih s2 f ('\n' :: indentChars 2) t (by simp at hfuel ⊢; omega)
      (by
        intro c hc
        rcases List.mem_cons.mp hc with rfl | hc2
        · decide
        · exact allWs_indent 2 c hc2)]
    rfl

theorem parseValue_cmdArray (fuel : Nat) (cmd : List String) (hf : cmd.length + 1 < fuel)
    (ws : List Char) (hws : ∀ c ∈ ws, isWsChar c) (t : List Char) :
    parseValue fuel (ws ++ (prettyCmdArray cmd ++ t)) =
      some (JValue.jarr (cmd.map JValue.jstr), t) := by
  obtain ⟨f, rfl⟩ : ∃ k, fuel = k + 1 := ⟨fuel - 1, by omega⟩
  cases cmd with
  | nil =>
    have hpa : prettyCmdArray [] ++ t = '[' :: (']' :: t) := rfl
    rw [parseValue, hpa]
    have h1 : skipWs (ws ++ ('[' :: (']' :: t))) = '[' :: (']' :: t) := by
      rw [skipWs_append _ _ hws, skipWs_not_ws _ _ (by decide)]
    rw [h1]
    simp only []
    rw [if_neg (show ¬ ('[' : Char) = '"' from by decide)]
    rfl
  | cons s r =>
    have hpa : prettyCmdArray (s :: r) ++ t =
        '[' :: ('\n' :: (prettyCmdElems (s :: r) ++
          ('\n' :: (indentChars 1 ++ (']' :: t))))) := by
      show ('[' :: '\n' :: (prettyCmdElems (s :: r) ++ ('\n' :: (indentChars 1 ++ [']'])))) ++ t =
        _
      simp only [List.cons_append, List.append_assoc, List.nil_append]
    rw [parseValue, hpa]
    have h1 : skipWs (ws ++ ('[' :: ('\n' :: (prettyCmdElems (s :: r) ++
        ('\n' :: (indentChars 1 ++ (']' :: t))))))) =
        '[' :: ('\n' :: (prettyCmdElems (s :: r) ++ ('\n' :: (indentChars 1 ++ (']' :: t))))) := by
      rw [skipWs_append _ _ hws, skipWs_not_ws _ _ (by decide)]
    rw [h1]
    simp only []
    rw [if_neg (show ¬ ('[' : Char) = '"' from by decide)]
    rw [if_true]
    have hsk2 : skipWs ('\n' :: (prettyCmdElems (s :: r) ++
        ('\n' :: (indentChars 1 ++ (']' :: t))))) =
        '"' :: (escapeString s.toList ++
          ('"' :: (elemsTail r ++ ('\n' :: (indentChars 1 ++ (']' :: t)))))) := by
      rw [skipWs, if_pos (by decide), prettyCmdElems_cons]
      rw [List.append_assoc, skipWs_append _ _ (allWs_indent 2)]
      rw [jsonStringChars]
      simp only [List.cons_append, List.append_assoc, List.nil_append]
      rw [skipWs_not_ws _ _ (by decide)]
    rw [hsk2]
    split
    · rename_i r2 heq
      exact absurd heq (by simp)
    · have hjs : ('"' :: (escapeString s.toList ++
          ('"' :: (elemsTail r ++ ('\n' :: (indentChars 1 ++ (']' :: t))))))) =
          ([] : List Char) ++ (jsonStringChars s ++
            (elemsTail r ++ ('\n' :: (indentChars 1 ++ (']' :: t))))) := by
        rw [jsonStringChars]
        simp only [List.cons_append, List.append_assoc, List.nil_append]
      rw [hjs]
      rw [parseElems_cmdAux r s f [] t (by simp at hf ⊢; omega) (by intro c hc; cases hc)]
      rfl

/-! object-field parsing -/

theorem parseFields_cons_step (f : Nat) (ws : List Char) (hws : ∀ c ∈ ws, isWsChar c)
    (k : String) (vtext rest2 rfinal : List Char) (v : JValue)
    (fs : List (String × JValue))
    (hv : parseValue f (' ' :: (vtext ++ (',' :: rest2))) = some (v, ',' :: rest2))
    (hrec : parseFields f rest2 = some (fs, rfinal)) :
    parseFields (f + 1)
        (ws ++ (jsonStringChars k ++ (':' :: ' ' :: (vtext ++ (',' :: rest2))))) =
      some ((k, v) :: fs, rfinal) := by
  rw [parseFields, jsonStringChars]
  have h1 : skipWs (ws ++ (('"' :: (escapeString k.toList ++ ['"'])) ++
      (':' :: ' ' :: (vtext ++ (',' :: rest2))))) =
      '"' :: (escapeString k.toList ++ ('"' :: (':' :: ' ' :: (vtext ++ (',' :: rest2))))) := by
    rw [skipWs_append _ _ hws]
    simp only [List.cons_append, List.append_assoc, List.nil_append]
    rw [skipWs_not_ws _ _ (by decide)]
  rw [h1]
  simp only []
  rw [parseStringBody_escapeString]
  simp only []
  rw [skipWs_not_ws _ _ (by decide)]
  simp only []
  rw [hv]
  simp only []
  rw [skipWs_not_ws _ _ (by decide)]
  simp only []
  rw [hrec]
  rfl

theorem parseFields_last_step (f : Nat) (ws : List Char) (hws : ∀ c ∈ ws, isWsChar c)
    (k : String) (vtext t : List Char) (v : JValue)
    (hv : parseValue f (' ' :: (vtext ++ ('\n' :: ('}' :: t)))) = some (v, '\n' :: ('}' :: t))) :
    parseFields (f + 1)
        (ws ++ (jsonStringChars k ++ (':' :: ' ' :: (vtext ++ ('\n' :: ('}' :: t)))))) =
      some ([(k, v)], t) := by
  rw [parseFields, jsonStringChars]
  have h1 : skipWs (ws ++ (('"' :: (escapeString k.toList ++ ['"'])) ++
      (':' :: ' ' :: (vtext ++ ('\n' :: ('}' :: t)))))) =
      '"' :: (escapeString k.toList ++ ('"' :: (':' :: ' ' :: (vtext ++ ('\n' :: ('}' :: t)))))) := by
    rw [skipWs_append _ _ hws]
    simp only [List.cons_append, List.append_assoc, List.nil_append]
    rw [skipWs_not_ws _ _ (by decide)]
  rw [h1]
  simp only []
  rw [parseStringBody_escapeString]
  simp only []
  rw [skipWs_not_ws _ _ (by decide)]
  simp only []
  rw [hv]
  simp only []
  have hsk : skipWs ('\n' :: ('}' :: t)) = '}' :: t := by
    rw [skipWs, if_pos (by decide), skipWs_not_ws _ _ (by decide)]
  rw [hsk]
  rfl

theorem allWs_space : ∀ c ∈ [' '], isWsChar c := by decide

theorem allWs_nl_indent (n : Nat) : ∀ c ∈ ('\n' :: indentChars n), isWsChar c := by
  intro c hc
  rcases List.mem_cons.mp hc with rfl | hc2
  · decide
  · exact allWs_indent n c hc2

theorem skipWs_nl_indent_string (n : Nat) (s : String) (rest : List Char) :
    skipWs ('\n' :: (indentChars n ++ (jsonStringChars s ++ rest))) =
      '"' :: (escapeString s.toList ++ ('"' :: rest)) := by
  rw [skipWs, if_pos (by decide), skipWs_append _ _ (allWs_indent n), jsonStringChars]
  simp only [List.cons_append, List.append_assoc, List.nil_append]
  rw [skipWs_not_ws _ _ (by decide)]

theorem cons_quote_jsonString (s : String) (rest : List Char) :
    ('"' :: (escapeString s.toList ++ ('"' :: rest))) = jsonStringChars s ++ rest := by
  rw [jsonStringChars]
  simp only [List.cons_append, List.append_assoc, List.nil_append]

theorem parseValue_memoDoc (m : Memo) (fuel : Nat) (hf : m.cmd.length + 7 ≤ fuel)
    (t : List Char) :
    parseValue fuel (prettyMemoChars m ++ t) = some (memoJValue m, t) := by
  obtain ⟨f5, rfl⟩ : ∃ k, fuel = k + 6 := ⟨fuel - 6, by omega⟩
  have hv5 := parseValue_string f5 (by omega) [' '] allWs_space m.digest ('\n' :: ('}' :: t))
  simp only [List.singleton_append] at hv5
  have hdg := parseFields_last_step f5 ('\n' :: indentChars 1) (allWs_nl_indent 1) "digest"
    (jsonStringChars m.digest) t (JValue.jstr m.digest) hv5
  simp only [List.cons_append] at hdg
  have hv4 := parseValue_string (f5 + 1) (by omega) [' '] allWs_space m.timestamp
    (',' :: ('\n' :: (indentChars 1 ++ (jsonStringChars "digest" ++ (':' :: ' ' :: (jsonStringChars m.digest ++ ('\n' :: ('}' :: t))))))))
  simp only [List.singleton_append] at hv4
  have hts := parseFields_cons_step (f5 + 1) ('\n' :: indentChars 1) (allWs_nl_indent 1)
    "timestamp" (jsonStringChars m.timestamp) ('\n' :: (indentChars 1 ++ (jsonStringChars "digest" ++ (':' :: ' ' :: (jsonStringChars m.digest ++ ('\n' :: ('}' :: t))))))) t
    (JValue.jstr m.timestamp) ([("digest", JValue.jstr m.digest)]) hv4 hdg
  simp only [List.cons_append] at hts
  have hv3 := parseValue_int (f5 + 2) (by omega) [' '] allWs_space m.exit_code ','
    ('\n' :: (indentChars 1 ++ (jsonStringChars "timestamp" ++ (':' :: ' ' :: (jsonStringChars m.timestamp ++ (',' :: ('\n' :: (indentChars 1 ++ (jsonStringChars "digest" ++ (':' :: ' ' :: (jsonStringChars m.digest ++ ('\n' :: ('}' :: t))))))))))))) (by decide)
  simp only [List.singleton_append] at hv3
  have hec := parseFields_cons_step (f5 + 2) ('\n' :: indentChars 1) (allWs_nl_indent 1)
    "exit_code" (intChars m.exit_code) ('\n' :: (indentChars 1 ++ (jsonStringChars "timestamp" ++ (':' :: ' ' :: (jsonStringChars m.timestamp ++ (',' :: ('\n' :: (indentChars 1 ++ (jsonStringChars "digest" ++ (':' :: ' ' :: (jsonStringChars m.digest ++ ('\n' :: ('}' :: t))))))))))))) t
    (JValue.jint m.exit_code) (("timestamp", JValue.jstr m.timestamp) :: [("digest", JValue.jstr m.digest)]) hv3 hts
  simp only [List.cons_append] at hec
  have hv2 := parseValue_string (f5 + 3) (by omega) [' '] allWs_space m.cwd
    (',' :: ('\n' :: (indentChars 1 ++ (jsonStringChars "exit_code" ++ (':' :: ' ' :: (intChars m.exit_code ++ (',' :: ('\n' :: (indentChars 1 ++ (jsonStringChars "timestamp" ++ (':' :: ' ' :: (jsonStringChars m.timestamp ++ (',' :: ('\n' :: (indentChars 1 ++ (jsonStringChars "digest" ++ (':' :: ' ' :: (jsonStringChars m.digest ++ ('\n' :: ('}' :: t))))))))))))))))))))
  simp only [List.singleton_append] at hv2
  have hcw := parseFields_cons_step (f5 + 3) ('\n' :: indentChars 1) (allWs_nl_indent 1)
    "cwd" (jsonStringChars m.cwd) ('\n' :: (indentChars 1 ++ (jsonStringChars "exit_code" ++ (':' :: ' ' :: (intChars m.exit_code ++ (',' :: ('\n' :: (indentChars 1 ++ (jsonStringChars "timestamp" ++ (':' :: ' ' :: (jsonStringChars m.timestamp ++ (',' :: ('\n' :: (indentChars 1 ++ (jsonStringChars "digest" ++ (':' :: ' ' :: (jsonStringChars m.digest ++ ('\n' :: ('}' :: t))))))))))))))))))) t
    (JValue.jstr m.cwd) (("exit_code", JValue.jint m.exit_code) :: ("timestamp", JValue.jstr m.timestamp) :: [("digest", JValue.jstr m.digest)]) hv2 hec
  simp only [List.cons_append] at hcw
  have hv1 := parseValue_cmdArray (f5 + 4) m.cmd (by omega) [' '] allWs_space
    (',' :: ('\n' :: (indentChars 1 ++ (jsonStringChars "cwd" ++ (':' :: ' ' :: (jsonStringChars m.cwd ++ (',' :: ('\n' :: (indentChars 1 ++ (jsonStringChars "exit_code" ++ (':' :: ' ' :: (intChars m.exit_code ++ (',' :: ('\n' :: (indentChars 1 ++ (jsonStringChars "timestamp" ++ (':' :: ' ' :: (jsonStringChars m.timestamp ++ (',' :: ('\n' :: (indentChars 1 ++ (jsonStringChars "digest" ++ (':' :: ' ' :: (jsonStringChars m.digest ++ ('\n' :: ('}' :: t))))))))))))))))))))))))))
  simp only [List.singleton_append] at hv1
  have hcm := parseFields_cons_step (f5 + 4) [] (by intro c hc; cases hc)
    "cmd" (prettyCmdArray m.cmd) ('\n' :: (indentChars 1 ++ (jsonStringChars "cwd" ++ (':' :: ' ' :: (jsonStringChars m.cwd ++ (',' :: ('\n' :: (indentChars 1 ++ (jsonStringChars "exit_code" ++ (':' :: ' ' :: (intChars m.exit_code ++ (',' :: ('\n' :: (indentChars 1 ++ (jsonStringChars "timestamp" ++ (':' :: ' ' :: (jsonStringChars m.timestamp ++ (',' :: ('\n' :: (indentChars 1 ++ (jsonStringChars "digest" ++ (':' :: ' ' :: (jsonStringChars m.digest ++ ('\n' :: ('}' :: t))))))))))))))))))))))))) t
    (JValue.jarr (m.cmd.map JValue.jstr)) (("cwd", JValue.jstr m.cwd) :: ("exit_code", JValue.jint m.exit_code) :: ("timestamp", JValue.jstr m.timestamp) :: [("digest", JValue.jstr m.digest)]) hv1 hcw
  simp only [List.nil_append] at hcm
  have hdoc : prettyMemoChars m ++ t =
      '{' :: ('\n' :: (indentChars 1 ++ (jsonStringChars "cmd" ++ (':' :: ' ' :: (prettyCmdArray m.cmd ++ (',' :: ('\n' :: (indentChars 1 ++ (jsonStringChars "cwd" ++ (':' :: ' ' :: (jsonStringChars m.cwd ++ (',' :: ('\n' :: (indentChars 1 ++ (jsonStringChars "exit_code" ++ (':' :: ' ' :: (intChars m.exit_code ++ (',' :: ('\n' :: (indentChars 1 ++ (jsonStringChars "timestamp" ++ (':' :: ' ' :: (jsonStringChars m.timestamp ++ (',' :: ('\n' :: (indentChars 1 ++ (jsonStringChars "digest" ++ (':' :: ' ' :: (jsonStringChars m.digest ++ ('\n' :: ('}' :: t))))))))))))))))))))))))))))))) := by
    rw [prettyMemoChars, prettyField, prettyField, prettyField, prettyField, prettyField]
    simp only [List.cons_append, List.append_assoc, List.nil_append]
  rw [parseValue, hdoc]
  rw [skipWs_not_ws _ _ (by decide)]
  simp only []
  rw [if_neg (show ¬ ('{' : Char) = '"' from by decide),
    if_neg (show ¬ ('{' : Char) = '[' from by decide)]
  rw [if_true]
  rw [skipWs_nl_indent_string 1 "cmd" (':' :: ' ' :: (prettyCmdArray m.cmd ++ (',' :: ('\n' :: (indentChars 1 ++ (jsonStringChars "cwd" ++ (':' :: ' ' :: (jsonStringChars m.cwd ++ (',' :: ('\n' :: (indentChars 1 ++ (jsonStringChars "exit_code" ++ (':' :: ' ' :: (intChars m.exit_code ++ (',' :: ('\n' :: (indentChars 1 ++ (jsonStringChars "timestamp" ++ (':' :: ' ' :: (jsonStringChars m.timestamp ++ (',' :: ('\n' :: (indentChars 1 ++ (jsonStringChars "digest" ++ (':' :: ' ' :: (jsonStringChars m.digest ++ ('\n' :: ('}' :: t))))))))))))))))))))))))))))]
  split
  · rename_i r2 heq
    exact absurd heq (by simp)
  · rw [cons_quote_jsonString "cmd" (':' :: ' ' :: (prettyCmdArray m.cmd ++ (',' :: ('\n' :: (indentChars 1 ++ (jsonStringChars "cwd" ++ (':' :: ' ' :: (jsonStringChars m.cwd ++ (',' :: ('\n' :: (indentChars 1 ++ (jsonStringChars "exit_code" ++ (':' :: ' ' :: (intChars m.exit_code ++ (',' :: ('\n' :: (indentChars 1 ++ (jsonStringChars "timestamp" ++ (':' :: ' ' :: (jsonStringChars m.timestamp ++ (',' :: ('\n' :: (indentChars 1 ++ (jsonStringChars "digest" ++ (':' :: ' ' :: (jsonStringChars m.digest ++ ('\n' :: ('}' :: t))))))))))))))))))))))))))))]
    have e45 : f5 + 4 + 1 = f5 + 5 := by omega
    rw [e45] at hcm
    rw [hcm]
    rfl

theorem mapStrs_map (l : List String) : mapStrs (l.map JValue.jstr) = some l := by
  induction l with
  | nil => rfl
  | cons s r ih => simp [mapStrs, ih]

theorem memoFromJson_memoJValue (m : Memo) (h1 : -2147483648 ≤ m.exit_code)
    (h2 : m.exit_code ≤ 2147483647) : memoFromJson (memoJValue m) = some m := by
  have hred : memoFromJson (memoJValue m) =
      (match mapStrs (m.cmd.map JValue.jstr), some m.cwd,
          (if -2147483648 ≤ m.exit_code ∧ m.exit_code ≤ 2147483647 then some m.exit_code
            else none),
          some m.timestamp, some m.digest with
        | some cmd, some cwd, some ec, some ts, some dg =>
          some (Memo.mk cmd cwd ec ts dg)
        | _, _, _, _, _ => none) := rfl
  rw [hred, mapStrs_map,
    if_pos (show -2147483648 ≤ m.exit_code ∧ m.exit_code ≤ 2147483647 from ⟨h1, h2⟩)]

theorem len_elems (cmd : List String) : cmd.length ≤ (prettyCmdElems cmd).length := by
  induction cmd with
  | nil => simp [prettyCmdElems]
  | cons s r ih =>
    rw [prettyCmdElems_cons]
    cases r with
    | nil =>
      simp [elemsTail, indentChars, jsonStringChars]
    | cons a b =>
      have he : elemsTail (a :: b) = ',' :: '\n' :: prettyCmdElems (a :: b) := rfl
      simp only [he, List.length_append, List.length_cons]
      simp only [List.length_cons] at ih
      simp [indentChars]
      omega

theorem len_arr (cmd : List String) : cmd.length + 2 ≤ (prettyCmdArray cmd).length := by
  cases cmd with
  | nil => simp [prettyCmdArray]
  | cons s r =>
    have ha : prettyCmdArray (s :: r) =
        '[' :: '\n' :: (prettyCmdElems (s :: r) ++ ('\n' :: (indentChars 1 ++ [']']))) := rfl
    have := len_elems (s :: r)
    simp only [ha, List.length_cons, List.length_append, indentChars, List.length_replicate]
    simp only [List.length_cons] at this ⊢
    omega

theorem len_doc (m : Memo) : m.cmd.length + 6 ≤ (prettyMemoChars m).length := by
  have := len_arr m.cmd
  rw [prettyMemoChars, prettyField, prettyField, prettyField, prettyField, prettyField]
  simp only [List.length_cons, List.length_append]
  omega

/-- Round trip of the metadata serialization: pretty-printing a `Memo`
and parsing it back reproduces the record, provided the exit code is in
`i32` range (which it always is in the Rust code). -/
theorem from_str_to_string_pretty (m : Memo) (h1 : -2147483648 ≤ m.exit_code)
    (h2 : m.exit_code ≤ 2147483647) : from_str (to_string_pretty m) = some m := by
  rw [from_str]
  have htl : (to_string_pretty m).toList = prettyMemoChars m := rfl
  have hlen : (to_string_pretty m).length = (prettyMemoChars m).length := rfl
  rw [htl, hlen]
  have hp := parseValue_memoDoc m ((prettyMemoChars m).length + 1)
    (by have := len_doc m; omega) []
  rw [List.append_nil] at hp
  rw [hp]
  simp only [skipWs, reduceIte]
  exact memoFromJson_memoJValue m h1 h2

/-! ## Helper lemmas for the claims -/

theorem hashBytes_length (st : Hash8) : (hashBytes st).length = 32 := rfl

theorem sha256_length (msg : List Nat) : (sha256 msg).length = 32 := by
  rw [sha256]
  exact hashBytes_length _

theorem hexChars_length (bs : List Nat) : (hexChars bs).length = 2 * bs.length := by
  induction bs with
  | nil => rfl
  | cons b r ih =>
    rw [hexChars, hexByteChars, List.cons_append, List.cons_append, List.nil_append]
    simp only [List.length_cons, ih]
    omega

theorem hexNibble_mem (n : Nat) : hexNibble n ∈ "0123456789abcdef".toList := by
  rw [hexNibble]
  have h : n % 16 < 16 := Nat.mod_lt n (by norm_num)
  interval_cases h16 : n % 16 <;> simp_all

theorem hexChars_mem (bs : List Nat) : ∀ c ∈ hexChars bs, c ∈ "0123456789abcdef".toList := by
  induction bs with
  | nil => intro c hc; cases hc
  | cons b r ih =>
    intro c hc
    rw [hexChars, hexByteChars] at hc
    rcases List.mem_append.mp hc with h | h
    · rcases h with _ | ⟨_, h2⟩
      · exact hexNibble_mem _
      · rcases h2 with _ | ⟨_, h3⟩
        · exact hexNibble_mem _
        · cases h3
    · exact ih c h

theorem digest_length (args : List String) (cwd : String) :
    (compute_digest_for_args args cwd).length = 64 := by
  show (hexChars (sha256 (digestInput args cwd))).length = 64
  rw [hexChars_length, sha256_length]

theorem digest_chars_hex (args : List String) (cwd : String) :
    ∀ c ∈ (compute_digest_for_args args cwd).toList, c ∈ "0123456789abcdef".toList := by
  intro c hc
  exact hexChars_mem _ c hc

theorem isPrefixOfChars_head {c d : Char} {p h : List Char}
    (hpre : isPrefixOfChars (c :: p) (d :: h) = true) : c = d := by
  rw [isPrefixOfChars, Bool.and_eq_true, beq_iff_eq] at hpre
  exact hpre.1

theorem containsSub_tmpMarker_dot {s : List Char}
    (h : containsSub s tmpMarker = true) : ('.' : Char) ∈ s := by
  induction s with
  | nil => rw [containsSub] at h; cases h
  | cons c rest ih =>
    rw [containsSub, Bool.or_eq_true] at h
    rcases h with h | h
    · have := isPrefixOfChars_head (p := ['t', 'm', 'p', '.']) (h := rest) h
      rw [← this]
      exact List.mem_cons_self _ _
    · exact List.mem_cons_of_mem _ (ih h)

theorem digest_no_tmpMarker (args : List String) (cwd : String) :
    containsSub (compute_digest_for_args args cwd).toList tmpMarker = false := by
  by_contra h
  rw [Bool.not_eq_false] at h
  have hdot := containsSub_tmpMarker_dot h
  have hhex := digest_chars_hex args cwd '.' hdot
  revert hhex
  decide

theorem cleanup_none_eq (root : List DirEnt) : cleanup_temp_dirs none root = root := by
  induction root with
  | nil => rfl
  | cons e rest ih =>
    rw [cleanup_temp_dirs]
    simp only [ih]
    cases h1 : e.isDir with
    | false => simp [h1]
    | true =>
      cases h2 : containsSub e.name.data tmpMarker <;>
        simp [String.toList, h1, h2]

theorem cleanup_some_eq_filter (c : Nat) (root : List DirEnt) :
    cleanup_temp_dirs (some c) root = root.filter (fun e => !(sweptBy c e)) := by
  induction root with
  | nil => rfl
  | cons e rest ih =>
    rw [cleanup_temp_dirs, List.filter_cons]
    simp only [ih]
    cases h1 : e.isDir with
    | false => simp [sweptBy, h1]
    | true =>
      cases h2 : containsSub e.name.data tmpMarker with
      | false => simp [sweptBy, String.toList, h1, h2]
      | true =>
        cases hm : e.modified with
        | none => simp [sweptBy, String.toList, h1, h2, hm]
        | some mt =>
          by_cases h3 : mt < c
          · simp [sweptBy, String.toList, h1, h2, hm, h3]
          · simp [sweptBy, String.toList, h1, h2, hm, h3]

theorem escapeString_injective {l1 l2 : List Char}
    (h : escapeString l1 = escapeString l2) : l1 = l2 := by
  have h1 := parseStringBody_escapeString l1 []
  have h2 := parseStringBody_escapeString l2 []
  rw [h] at h1
  rw [h1] at h2
  injection h2 with h3
  injection h3

theorem jsonStringChars_injective {c1 c2 : String}
    (h : jsonStringChars c1 = jsonStringChars c2) : c1 = c2 := by
  rw [jsonStringChars, jsonStringChars] at h
  have h2 := List.tail_eq_of_cons_eq h
  have h3 := List.append_cancel_right h2
  have h4 := escapeString_injective h3
  calc c1 = String.mk c1.toList := (mk_toList c1).symm
    _ = String.mk c2.toList := by rw [h4]
    _ = c2 := mk_toList c2

theorem digestInput_cwd_injective (args : List String) {c1 c2 : String}
    (h : digestInput args c1 = digestInput args c2) : c1 = c2 := by
  rw [digestInput, digestInput] at h
  have h2 := List.append_cancel_left h
  exact jsonStringChars_injective (utf8Str_injective h2)

theorem hexTable_indexOf_inj {c d : Char} (hc : c ∈ hexTable) (hd : d ∈ hexTable)
    (h : hexTable.indexOf c % 16 = hexTable.indexOf d % 16) : c = d := by
  have hlc : hexTable.indexOf c < 16 := List.indexOf_lt_length.mpr hc
  have hld : hexTable.indexOf d < 16 := List.indexOf_lt_length.mpr hd
  rw [Nat.mod_eq_of_lt hlc, Nat.mod_eq_of_lt hld] at h
  exact (List.indexOf_inj hc hd).mp h

theorem digestCode_inj {s t : String} (hs : s.length = 64) (ht : t.length = 64)
    (hcs : ∀ c ∈ s.toList, c ∈ "0123456789abcdef".toList)
    (hct : ∀ c ∈ t.toList, c ∈ "0123456789abcdef".toList)
    (h : digestCode s = digestCode t) : s = t := by
  have htab : "0123456789abcdef".toList = hexTable := rfl
  rw [htab] at hcs hct
  have hls : s.toList.length = 64 := hs
  have hlt : t.toList.length = 64 := ht
  have hlist : s.toList = t.toList := by
    apply List.ext_getElem (by rw [hls, hlt])
    intro i hi1 hi2
    have hi : i < 64 := by rw [hls] at hi1; exact hi1
    have hcode := congrFun h ⟨i, hi⟩
    have hv : hexTable.indexOf (s.toList.getD i ' ') % 16
        = hexTable.indexOf (t.toList.getD i ' ') % 16 := congrArg Fin.val hcode
    have hgs : s.toList.getD i ' ' = s.toList[i] := List.getD_eq_getElem _ _ hi1
    have hgt : t.toList.getD i ' ' = t.toList[i] := List.getD_eq_getElem _ _ hi2
    rw [hgs, hgt] at hv
    exact hexTable_indexOf_inj (hcs _ (List.getElem_mem _)) (hct _ (List.getElem_mem _)) hv
  calc s = String.mk s.toList := (mk_toList s).symm
    _ = String.mk t.toList := by rw [hlist]
    _ = t := mk_toList t

/-! ### Tee-writer helpers -/

theorem teeWrite_console_bytes (st : TeeState) (buf : List Nat) (fres : Option Nat) :
    (teeWrite st buf fres none).2.consoleBytes = st.consoleBytes ++ buf := by
  cases fres with
  | none => rfl
  | some e => cases hse : st.storedError <;> simp [teeWrite, hse]

theorem tee_copy_all_ok (ops : List (List Nat × Option Nat × Option Nat)) :
    ∀ st : TeeState, (∀ x ∈ ops, x.2.2 = (none : Option Nat)) →
      (tee_copy st ops).1 = none ∧
      (tee_copy st ops).2.consoleBytes = st.consoleBytes ++ (ops.map Prod.fst).flatten := by
  induction ops with
  | nil => intro st h; exact ⟨rfl, by simp [tee_copy]⟩
  | cons x rest ih =>
    intro st h
    obtain ⟨buf, fres, cres⟩ := x
    have hc : cres = none := h _ (List.mem_cons_self _ _)
    subst hc
    have hrest : ∀ y ∈ rest, y.2.2 = (none : Option Nat) :=
      fun y hy => h y (List.mem_cons_of_mem _ hy)
    have hstep : tee_copy st ((buf, fres, none) :: rest) =
        tee_copy (teeWrite st buf fres none).2 rest := rfl
    rw [hstep]
    obtain ⟨h1, h2⟩ := ih (teeWrite st buf fres none).2 hrest
    refine ⟨h1, ?_⟩
    rw [h2, teeWrite_console_bytes]
    simp [List.append_assoc]

/-! ### Cache-listing helpers -/

theorem findEntry_append_none {root : List DirEnt} {digest : String}
    (h : findEntry root digest = none) (e : DirEnt) :
    findEntry (root ++ [e]) digest = if e.name == digest then some e else none := by
  rw [findEntry] at h ⊢
  rw [List.find?_append, h]
  cases hn : e.name == digest <;> simp [List.find?, hn]

theorem findEntry_map_update (root : List DirEnt) (digest : String) (F : EntryFiles) :
    findEntry (root.map (fun e2 =>
        if e2.name == digest then { e2 with files := F } else e2)) digest
      = (findEntry root digest).map (fun e => { e with files := F }) := by
  induction root with
  | nil => rfl
  | cons e r ih =>
    simp only [findEntry] at ih ⊢
    rw [List.map_cons, List.find?_cons, List.find?_cons]
    cases hn : e.name == digest with
    | true => simp [hn, -List.find?_map]
    | false =>
      simp only [Bool.false_eq_true, if_false, hn]
      exact ih

theorem replay_cached_effects (root : List DirEnt) (digest : String) :
    Effect.execCmd ∉ (replay_cached root digest).2 ∧
    Effect.writeMeta ∉ (replay_cached root digest).2 := by
  rw [replay_cached]
  cases read_memo_metadata root digest with
  | none => simp
  | some m =>
    cases stream_stdout root digest with
    | none => simp
    | some ob =>
      cases stream_stderr root digest with
      | none => simp
      | some eb => simp

/-! ## The claims -/

/-- Claim C7: `compute_digest_for_args` is deterministic — identical argv
and cwd give the identical key — and every key it returns is a
64-character string of lowercase hexadecimal characters. -/
theorem digest_deterministic_hex_format (a1 a2 : List String) (c1 c2 : String)
    (ha : a1 = a2) (hc : c1 = c2) :
    compute_digest_for_args a1 c1 = compute_digest_for_args a2 c2 ∧
    (compute_digest_for_args a1 c1).length = 64 ∧
    ∀ ch ∈ (compute_digest_for_args a1 c1).toList, ch ∈ "0123456789abcdef".toList := by
  subst ha
  subst hc
  exact ⟨rfl, digest_length a1 c1, digest_chars_hex a1 c1⟩

/-- Claim C7 witness at argv `["ls"]`, cwd `"/"`. -/
theorem digest_deterministic_hex_format_witness :
    ((["ls"] : List String) = ["ls"]) ∧ (("/" : String) = "/") ∧
    (compute_digest_for_args ["ls"] "/" = compute_digest_for_args ["ls"] "/" ∧
     (compute_digest_for_args ["ls"] "/").length = 64 ∧
     ∀ ch ∈ (compute_digest_for_args ["ls"] "/").toList, ch ∈ "0123456789abcdef".toList) :=
  ⟨rfl, rfl, digest_deterministic_hex_format ["ls"] ["ls"] "/" "/" rfl rfl⟩

/-- Claim C8: with the 24-hour cutoff available, the orphan sweep keeps
exactly the entries the delete condition does not select: an entry is
removed iff it is a directory whose name contains `".tmp."` and whose
modified time is known and strictly older than `now - 24h`; in
particular an entry whose modified time cannot be read survives. -/
theorem cleanup_deletes_exactly_old_staging (now : Nat) (root : List DirEnt)
    (h : 86400 ≤ now) :
    cleanup_temp_dirs (cleanupCutoff now) root =
      root.filter (fun e => !(sweptBy (now - 86400) e)) ∧
    ∀ e ∈ root, e.modified = none →
      e ∈ cleanup_temp_dirs (cleanupCutoff now) root := by
  have hc : cleanupCutoff now = some (now - 86400) := by simp [cleanupCutoff, h]
  rw [hc, cleanup_some_eq_filter]
  refine ⟨rfl, fun e he hm => ?_⟩
  rw [List.mem_filter]
  exact ⟨he, by simp [sweptBy, hm]⟩

/-- Claim C8 witness at `now = 100000`: the old staging directory is
swept, the fresh one and the one with unreadable time are kept. -/
theorem cleanup_deletes_exactly_old_staging_witness :
    86400 ≤ 100000 ∧
    (cleanup_temp_dirs (cleanupCutoff 100000) sweepRoot =
       sweepRoot.filter (fun e => !(sweptBy (100000 - 86400) e)) ∧
     ∀ e ∈ sweepRoot, e.modified = none →
       e ∈ cleanup_temp_dirs (cleanupCutoff 100000) sweepRoot) :=
  ⟨by decide, cleanup_deletes_exactly_old_staging 100000 sweepRoot (by decide)⟩

/-- Claim C10: a digest key contains no `".tmp."` (its characters are all
hexadecimal, so none is even a dot next to `tmp`), hence a published
entry directory named by `compute_digest_for_args` survives
`cleanup_temp_dirs` whatever the cutoff and however old it is. -/
theorem published_entries_survive_sweep (args : List String) (cwd : String)
    (cutoff : Option Nat) (root : List DirEnt) (e : DirEnt) (he : e ∈ root)
    (hn : e.name = compute_digest_for_args args cwd) :
    containsSub (compute_digest_for_args args cwd).toList tmpMarker = false ∧
    e ∈ cleanup_temp_dirs cutoff root := by
  refine ⟨digest_no_tmpMarker args cwd, ?_⟩
  cases cutoff with
  | none => rw [cleanup_none_eq]; exact he
  | some c =>
    rw [cleanup_some_eq_filter, List.mem_filter]
    refine ⟨he, ?_⟩
    have hsub : containsSub e.name.data tmpMarker = false := by
      rw [hn]; exact digest_no_tmpMarker args cwd
    simp [sweptBy, String.toList, hsub]

/-- Claim C10 witness: a directory named by the digest of
`["echo", "hi"]` in `"/w"` survives a sweep with a huge cutoff. -/
theorem published_entries_survive_sweep_witness :
    wDigestEnt ∈ [wDigestEnt] ∧
    wDigestEnt.name = compute_digest_for_args ["echo", "hi"] "/w" ∧
    (containsSub (compute_digest_for_args ["echo", "hi"] "/w").toList tmpMarker = false ∧
     wDigestEnt ∈ cleanup_temp_dirs (some 999999999) [wDigestEnt]) :=
  ⟨List.mem_singleton.mpr rfl, rfl,
   published_entries_survive_sweep ["echo", "hi"] "/w" (some 999999999) [wDigestEnt]
     wDigestEnt (List.mem_singleton.mpr rfl) rfl⟩

/-- Claim C2: `commit_cache_dir` on an uncommitted staging buffer at path
`p` returns `Ok(true)` exactly when this call performed the rename (the
destination did not exist and the rename raised no other I/O error); an
existing destination gives `Ok(false)` — not an error — and leaves the
buffer uncommitted, so its `Drop` discards the staging directory; a win
marks the buffer committed, so `Drop` deletes nothing from the renamed
listing. -/
theorem commit_cache_dir_win_loss (p : String) (root : List DirEnt) (digest : String)
    (glitch : Bool) :
    ((commit_cache_dir ⟨p, false⟩ root digest glitch).1 = CommitRes.ok true ↔
      findEntry root digest = none ∧ glitch = false) ∧
    (findEntry root digest ≠ none →
      commit_cache_dir ⟨p, false⟩ root digest glitch = (CommitRes.ok false, ⟨p, false⟩, root) ∧
      tempCacheDir_drop ⟨p, false⟩ root = root.filter (fun e => !(e.name == p))) ∧
    (findEntry root digest = none → glitch = false →
      (commit_cache_dir ⟨p, false⟩ root digest glitch).2.1.committed = true ∧
      (commit_cache_dir ⟨p, false⟩ root digest glitch).2.2 = renameEntry root p digest ∧
      tempCacheDir_drop (commit_cache_dir ⟨p, false⟩ root digest glitch).2.1
          (commit_cache_dir ⟨p, false⟩ root digest glitch).2.2 =
        (commit_cache_dir ⟨p, false⟩ root digest glitch).2.2) := by
  cases hfe : findEntry root digest with
  | some e =>
    refine ⟨by simp [commit_cache_dir, hfe], fun _ => ⟨by simp [commit_cache_dir, hfe], ?_⟩,
      fun hno _ => Option.noConfusion hno⟩
    simp [tempCacheDir_drop]
  | none =>
    cases glitch with
    | true =>
      exact ⟨by simp [commit_cache_dir, hfe], fun hne => absurd rfl hne,
        fun _ hg => by cases hg⟩
    | false =>
      refine ⟨by simp [commit_cache_dir, hfe], fun hne => absurd rfl hne, fun _ _ => ?_⟩
      refine ⟨?_, ?_, ?_⟩ <;> simp [commit_cache_dir, hfe, tempCacheDir_drop]

/-- Claim C3: through the tee writer, a console-write failure is returned
as the error of the write call; a file-write failure never fails the call
(it still reports the full buffer length), only the first file error is
stored, console bytes are appended regardless of file failures, and a
copy whose console writes all succeed runs to completion and delivers
every chunk byte to the console. -/
theorem tee_writer_error_policy :
    (∀ (st : TeeState) (buf : List Nat) (fres : Option Nat) (e : Nat),
      (teeWrite st buf fres (some e)).1 = WriteOutcome.werr e) ∧
    (∀ (st : TeeState) (buf : List Nat) (fres : Option Nat),
      (teeWrite st buf fres none).1 = WriteOutcome.ok buf.length) ∧
    (∀ (st : TeeState) (buf : List Nat) (cres : Option Nat) (e : Nat),
      st.storedError = none → (teeWrite st buf (some e) cres).2.storedError = some e) ∧
    (∀ (st : TeeState) (buf : List Nat) (cres : Option Nat) (e e0 : Nat),
      st.storedError = some e0 → (teeWrite st buf (some e) cres).2.storedError = some e0) ∧
    (∀ (st : TeeState) (buf : List Nat) (fres : Option Nat),
      (teeWrite st buf fres none).2.consoleBytes = st.consoleBytes ++ buf) ∧
    (∀ (st : TeeState) (ops : List (List Nat × Option Nat × Option Nat)),
      (∀ x ∈ ops, x.2.2 = (none : Option Nat)) →
        (tee_copy st ops).1 = none ∧
        (tee_copy st ops).2.consoleBytes = st.consoleBytes ++ (ops.map Prod.fst).flatten) := by
  refine ⟨fun st buf fres e => rfl, fun st buf fres => rfl, ?_, ?_,
    teeWrite_console_bytes, fun st ops h => tee_copy_all_ok ops st h⟩
  · intro st buf cres e h
    cases cres <;> simp [teeWrite, h]
  · intro st buf cres e e0 h
    cases cres <;> simp [teeWrite, h]

/-- Claim C4: on a complete entry the coordinator replays it: it reads
the stored metadata, emits the cached stdout bytes and then the cached
stderr bytes, in that order and byte-for-byte, exits with the stored
exit code, and never reaches the miss branch — no `execCmd` effect
occurs, whatever the miss branch would have done. -/
theorem hit_replays_without_execution (root : List DirEnt) (digest : String)
    (missBranch : ProcOut × List Effect) (m : Memo) (ob eb : List Nat)
    (hcomp : memo_complete root digest = true)
    (hm : read_memo_metadata root digest = some m)
    (ho : stream_stdout root digest = some ob)
    (he : stream_stderr root digest = some eb) :
    run_cached_or root digest missBranch =
      (ProcOut.exit m.exit_code, [Effect.outWrite ob, Effect.errWrite eb]) ∧
    Effect.execCmd ∉ (run_cached_or root digest missBranch).2 := by
  have h1 : run_cached_or root digest missBranch = replay_cached root digest := by
    rw [run_cached_or, if_pos hcomp]
  have h2 : replay_cached root digest =
      (ProcOut.exit m.exit_code, [Effect.outWrite ob, Effect.errWrite eb]) := by
    simp only [replay_cached, hm, ho, he]
  rw [h1, h2]
  exact ⟨rfl, by simp⟩

/-- Claim C4 witness: a complete entry holding the serialized `wMemo`,
stdout bytes `[104, 105]` and stderr bytes `[0, 255]` replays exactly. -/
theorem hit_replays_without_execution_witness :
    memo_complete wRoot "k" = true ∧
    read_memo_metadata wRoot "k" = some wMemo ∧
    stream_stdout wRoot "k" = some [104, 105] ∧
    stream_stderr wRoot "k" = some [0, 255] ∧
    (run_cached_or wRoot "k" (ProcOut.err MErr.io, []) =
       (ProcOut.exit 0, [Effect.outWrite [104, 105], Effect.errWrite [0, 255]]) ∧
     Effect.execCmd ∉ (run_cached_or wRoot "k" (ProcOut.err MErr.io, [])).2) :=
  ⟨by decide, by decide, by decide, by decide,
   hit_replays_without_execution wRoot "k" (ProcOut.err MErr.io, []) wMemo [104, 105] [0, 255]
     (by decide) (by decide) (by decide) (by decide)⟩

/-- Claim C5: when `try_acquire_lock` fails with `AlreadyExists`, the
loop first re-checks completeness and replays a complete entry without
executing the command or writing metadata; with the entry incomplete it
returns the distinct `LockTimeout` error once `Instant::now()` reaches
the deadline, and otherwise sleeps 25 ms and retries; the deadline is
2 s (2000 ms) after the start. -/
theorem lock_wait_protocol (digest : String) (deadline : Nat) (o : LoopObs)
    (rest : List LoopObs) (ha : o.acquire = AcquireRes.alreadyExists) :
    (memo_complete o.root digest = true →
      lockLoop digest deadline (o :: rest) = replay_cached o.root digest ∧
      Effect.execCmd ∉ (replay_cached o.root digest).2 ∧
      Effect.writeMeta ∉ (replay_cached o.root digest).2) ∧
    (memo_complete o.root digest = false → o.now < deadline →
      lockLoop digest deadline (o :: rest) =
        ((lockLoop digest deadline rest).1,
         Effect.sleepMs 25 :: (lockLoop digest deadline rest).2)) ∧
    (memo_complete o.root digest = false → deadline ≤ o.now →
      lockLoop digest deadline (o :: rest) = (ProcOut.err MErr.lockTimeout, [])) ∧
    (∀ start, wait_deadline start = start + 2000) ∧
    MErr.lockTimeout ≠ MErr.io := by
  refine ⟨fun hcm => ?_, fun hcm hlt => ?_, fun hcm hge => ?_, fun start => ?_, by decide⟩
  · exact ⟨by simp [lockLoop, ha, hcm], (replay_cached_effects o.root digest).1,
      (replay_cached_effects o.root digest).2⟩
  · have hn : ¬ deadline ≤ o.now := by omega
    simp [lockLoop, ha, hcm, hn, LOCK_WAIT_INTERVAL_MS]
  · simp [lockLoop, ha, hcm, hge]
  · simp [wait_deadline, LOCK_WAIT_TIMEOUT_SECS]

/-- Claim C5 witness: with an incomplete entry and the deadline already
passed, the loop fails with `LockTimeout`. -/
theorem lock_wait_protocol_witness :
    wObs.acquire = AcquireRes.alreadyExists ∧
    lockLoop "k" 2000 [wObs] = (ProcOut.err MErr.lockTimeout, []) :=
  ⟨rfl, (lock_wait_protocol "k" 2000 wObs [] rfl).2.2.1 (by decide) (by decide)⟩

/-- Claim C9: writing a cache entry and reading it back for the same
digest reproduces the metadata record — the exact exit code included,
negative values allowed — and byte-identical stdout and stderr, for
arbitrary byte payloads. -/
theorem write_read_memo_roundtrip (root : List DirEnt) (digest : String) (m : Memo)
    (ob eb : List Nat) (now : Nat) (root2 : List DirEnt)
    (h1 : -2147483648 ≤ m.exit_code) (h2 : m.exit_code ≤ 2147483647)
    (hw : write_memo root digest m ob eb now = some root2) :
    read_memo root2 digest = some (m, ob, eb) := by
  rw [write_memo] at hw
  cases hfe : findEntry root digest with
  | none =>
    rw [hfe] at hw
    injection hw with hr2
    subst hr2
    rw [read_memo, findEntry_append_none hfe]
    simp [from_str_to_string_pretty m h1 h2]
  | some e =>
    rw [hfe] at hw
    simp only [] at hw
    cases hd : e.isDir with
    | false =>
      rw [hd] at hw
      simp only [Bool.false_eq_true, if_false] at hw
      exact Option.noConfusion hw
    | true =>
      rw [hd] at hw
      simp only [reduceIte] at hw
      injection hw with hr2
      subst hr2
      rw [read_memo, findEntry_map_update, hfe]
      simp [hd, from_str_to_string_pretty m h1 h2]

/-- Claim C9 witness: a record with negative exit code `-9` and binary
payloads (NUL and 0xFF bytes) round-trips through an empty root. -/
theorem write_read_memo_roundtrip_witness :
    (-2147483648 ≤ wMemoNeg.exit_code) ∧ (wMemoNeg.exit_code ≤ 2147483647) ∧
    write_memo [] "k" wMemoNeg [0, 255, 10] [7] 3 = some wRootNeg ∧
    read_memo wRootNeg "k" = some (wMemoNeg, [0, 255, 10], [7]) :=
  ⟨by decide, by decide, rfl,
   write_read_memo_roundtrip [] "k" wMemoNeg [0, 255, 10] [7] 3 wRootNeg
     (by decide) (by decide) rfl⟩

/-- Claim C1 counterexample: the command ran and exited 7, but the
metadata `write_all` failed; the `?` operator propagates the error out of
`run`, `main` prints it and exits 1 — the final outcome is not exit 7, so
an artifact-write failure on the miss path does change the exit code. -/
theorem miss_meta_write_failure_changes_exit :
    badMissEnv.execRes = some ⟨7, none, none⟩ ∧
    (run_miss_body badMissEnv).1 = ProcOut.err MErr.io ∧
    (run_miss_body badMissEnv).1 ≠ ProcOut.exit 7 := by decide

/-- Claim C1 amended: once the command has run, the exit code the miss
body reports is exactly the one the command produced, and tee-captured
stdout/stderr file-write failures never change it — but only provided
the metadata create and write and the two stream-backs succeed; a
failure there `?`-propagates and becomes exit 1, refuting the original
claim's "any failure while writing cache artifacts" part. -/
theorem miss_exit_code_when_artifacts_ok (env : MissEnv) (r : ExecutionResult)
    (ob eb : List Nat) (hr : env.execRes = some r) (hc : env.jsonCreateOk = true)
    (hw : env.jsonWriteOk = true) (ho : env.streamOutRes = some ob)
    (he : env.streamErrRes = some eb) :
    (run_miss_body env).1 = ProcOut.exit r.exit_code ∧
    ∀ se1 se2, (run_miss_body { env with
        execRes := some { r with stdout_error := se1, stderr_error := se2 } }).1 =
      ProcOut.exit r.exit_code := by
  constructor
  · simp [run_miss_body, hr, hc, hw, ho, he]
  · intro se1 se2
    simp [run_miss_body, hc, hw, ho, he]

/-- Claim C1 amended witness: the command exited 7 with a tee-captured
stdout file error, all artifact writes succeeded, and the miss body
reports exit 7. -/
theorem miss_exit_code_when_artifacts_ok_witness :
    goodMissEnv.execRes = some ⟨7, some 3, none⟩ ∧
    goodMissEnv.jsonCreateOk = true ∧ goodMissEnv.jsonWriteOk = true ∧
    goodMissEnv.streamOutRes = some [1] ∧ goodMissEnv.streamErrRes = some [] ∧
    (run_miss_body goodMissEnv).1 = ProcOut.exit 7 :=
  ⟨rfl, rfl, rfl, rfl, rfl,
   (miss_exit_code_when_artifacts_ok goodMissEnv ⟨7, some 3, none⟩ [1] []
     rfl rfl rfl rfl rfl).1⟩

/-- Claim C6 counterexample: universal cwd-injectivity is false — for
some argv, two different working directories produce the same key,
because there are infinitely many cwds and only finitely many
64-character hex digests (pigeonhole on `Fin 64 → Fin 16`). -/
theorem digest_cwd_collision_exists :
    ∃ (args : List String) (c1 c2 : String), c1 ≠ c2 ∧
      compute_digest_for_args args c1 = compute_digest_for_args args c2 := by
  obtain ⟨n, m, hnm, heq⟩ := Finite.exists_ne_map_eq_of_infinite
    (fun n : Nat => digestCode (compute_digest_for_args [] (String.mk (List.replicate n 'a'))))
  refine ⟨[], String.mk (List.replicate n 'a'), String.mk (List.replicate m 'a'), ?_, ?_⟩
  · intro he
    apply hnm
    have h2 : List.replicate n 'a' = List.replicate m 'a' := congrArg String.data he
    have h3 := congrArg List.length h2
    simpa using h3
  · exact digestCode_inj (digest_length _ _) (digest_length _ _)
      (digest_chars_hex _ _) (digest_chars_hex _ _) heq

/-- Claim C6 amended: boundary-sensitivity is real at the hash-input
level — `["echo","a b"]` and `["echo","a","b"]` feed different byte
strings to SHA-256 for every cwd, and their keys differ at the concrete
cwd `"/test/cwd"`; different cwds always feed different bytes to the
hash (the encoding is injective in the cwd), the same cwd gives equal
keys, and at a concrete pair of distinct cwds the keys differ — while
universal key-inequality over all cwd pairs is impossible for any
fixed-length digest (see the pigeonhole counterexample). -/
theorem digest_boundary_cwd_sensitivity :
    (∀ cwd : String, digestInput ["echo", "a b"] cwd ≠ digestInput ["echo", "a", "b"] cwd) ∧
    compute_digest_for_args ["echo", "a b"] "/test/cwd" ≠
      compute_digest_for_args ["echo", "a", "b"] "/test/cwd" ∧
    (∀ (args : List String) (c1 c2 : String), c1 ≠ c2 →
      digestInput args c1 ≠ digestInput args c2) ∧
    compute_digest_for_args ["echo", "hello"] "/path/one" ≠
      compute_digest_for_args ["echo", "hello"] "/path/two" ∧
    (∀ (args : List String) (c1 c2 : String), c1 = c2 →
      compute_digest_for_args args c1 = compute_digest_for_args args c2) := by
  refine ⟨?_, by decide, ?_, by decide, ?_⟩
  · intro cwd he
    have hlen := congrArg List.length he
    simp only [digestInput, List.length_append] at hlen
    rw [show (utf8Str (jsonArrayChars ["echo", "a b"])).length = 14 from by decide,
        show (utf8Str (jsonArrayChars ["echo", "a", "b"])).length = 16 from by decide] at hlen
    omega
  · exact fun args c1 c2 hne he => hne (digestInput_cwd_injective args he)
  · intro args c1 c2 hceq
    rw [hceq]

end MemoSpec
